import Mathlib

/-!
Verification of the `thx` multi-runtime task runner against its
natural-language specification.

The development is a shallow embedding of the Python sources:

* `thx/utils.py` — `version_match` over `packaging.version.Version`;
* `thx/core.py` — `resolve_jobs`, `run_step_on_context`,
  `run_job_on_context`, `run_jobs`;
* `thx/context.py` — `prepare_virtualenv{,_pip,_uv}`, `prepare_contexts`,
  `find_runtime`, `resolve_contexts`;
* `thx/runner.py` — `venv_bin_path`, `which`, `render_command`,
  `run_command`, `check_command`, `prepare_job`;
* `thx/config.py` — the version list produced by `load_config`.

External effects (subprocess spawning, `shutil.which`, the filesystem,
`needs_update` staleness checks) are abstracted as oracle parameters;
the `aioitertools` `as_generated` fan-in is modelled by the `Merge`
interleaving relation, which captures exactly the guarantee the library
gives: each producer's own order is preserved, with no cross-producer
ordering.
-/

/-! ## Version model (interface of `packaging.version.Version`)

Only the parts of `packaging.version.Version` that the repository uses
are modelled: the numeric `release` tuple, the `pre`, `post` and `dev`
qualifiers, and `epoch`.  The `local` segment is never touched by the
code under verification and is omitted.  The `pre` letter is stored in
its normalised form (`a`, `b`, `rc`), as `packaging` normalises it on
construction. -/

structure Version where
  epoch : Nat
  release : List Nat
  pre : Option (String × Nat)
  post : Option Nat
  dev : Option Nat
deriving DecidableEq, Repr

/-- The `all(v == t or t is None for v, t in zip_longest(version.release,
target.release))` test of `thx.utils.version_match`: `zip_longest` pads the
shorter list with `None`, `v == t` is integer equality, and `t is None`
holds exactly for the padding of the target.  First argument is the
candidate's release, second the target's. -/
def releaseSegmentsOk : List Nat → List Nat → Bool
  | _, [] => true
  | [], _ :: _ => false
  | v :: vs, t :: ts => v == t && releaseSegmentsOk vs ts

/-- Python truthiness of an optional qualifier tuple such as `pre`:
`None` is falsy, a (non-empty) tuple is always truthy. -/
def Version.preTruthy (v : Version) : Bool :=
  v.pre.isSome

/-- Python truthiness of an optional integer qualifier (`post`, `dev`):
`None` and `0` are falsy. -/
def natOptTruthy : Option Nat → Bool
  | none => false
  | some n => n != 0

/-- Shallow embedding of `thx.utils.version_match`.  A candidate is kept
iff the release check passes and none of the three `continue` guards
(`target.pre and target.pre != version.pre`, same for `post`/`dev`)
fires. -/
def version_match (versions : List Version) (target : Version) : List Version :=
  versions.filter fun version =>
    releaseSegmentsOk version.release target.release
    && !(target.preTruthy && target.pre != version.pre)
    && !(natOptTruthy target.post && target.post != version.post)
    && !(natOptTruthy target.dev && target.dev != version.dev)

/-- The matching rule claim C1 states, written from the claim's words:
all overlapping release segments, compared pairwise up to the length of
the shorter release tuple, must be equal; a target carrying a
pre/post/dev qualifier admits only candidates with the exactly equal
qualifier; and an unqualified target whose release tuple is identical to
the candidate's does not match a pre-release candidate. -/
def overlapEqual : List Nat → List Nat → Bool
  | _, [] => true
  | [], _ :: _ => true
  | v :: vs, t :: ts => v == t && overlapEqual vs ts

/-- Per-candidate matching predicate as claim C1 words it (see
`overlapEqual`). -/
def claimMatches (target version : Version) : Bool :=
  overlapEqual version.release target.release
  && (!target.pre.isSome || target.pre == version.pre)
  && (!target.post.isSome || target.post == version.post)
  && (!target.dev.isSome || target.dev == version.dev)
  && !(target.pre == none && target.post == none && target.dev == none
       && version.release == target.release && version.pre.isSome)

/-- Per-candidate matching predicate that the code actually implements,
in the claim's style: the target's release tuple must be a prefix of the
candidate's (so a candidate with a shorter release than the target never
matches), and each truthy target qualifier (`pre`; non-zero `post`;
non-zero `dev`) must be exactly equal on the candidate; there is no
special exclusion of pre-release candidates. -/
def amendedMatches (target version : Version) : Bool :=
  target.release.isPrefixOf version.release
  && (!target.preTruthy || target.pre == version.pre)
  && (!natOptTruthy target.post || target.post == version.post)
  && (!natOptTruthy target.dev || target.dev == version.dev)

theorem natBeqComm (a b : Nat) : (a == b) = (b == a) := by
  by_cases h : a = b
  · simp [h]
  · simp [h, Ne.symm h]

theorem releaseSegmentsOk_eq_isPrefixOf :
    ∀ (v t : List Nat), releaseSegmentsOk v t = t.isPrefixOf v := by
  intro v t
  induction v generalizing t with
  | nil => cases t <;> rfl
  | cons a vs ih =>
    cases t with
    | nil => rfl
    | cons b ts =>
      simp only [releaseSegmentsOk, List.isPrefixOf, ih]
      rw [natBeqComm]

/-- Example versions used to anchor version matching. -/
def v39 : Version := ⟨0, [3, 9], none, none, none⟩

def v394 : Version := ⟨0, [3, 9, 4], none, none, none⟩

def v310 : Version := ⟨0, [3, 10], none, none, none⟩

def v390 : Version := ⟨0, [3, 9, 0], none, none, none⟩

def v390b1 : Version := ⟨0, [3, 9, 0], some ("b", 1), none, none⟩

/-- C1, counterexample.  On the candidate list `["3.9", "3.9.0b1"]` with
target `"3.9.0"` the claim's rule selects exactly `["3.9"]` (overlap up
to the shorter tuple matches `3.9`; the pre-release exclusion rejects
`3.9.0b1`), but `version_match` returns exactly `["3.9.0b1"]` — agreeing
with the repository's own test
(`("3.9.0", [Version("3.9.0b1")])` in `thx/tests/utils.py`) and
contradicting the claim on both counts. -/
theorem c1_counterexample :
    version_match [v39, v390b1] v390 = [v390b1]
    ∧ List.filter (fun v => claimMatches v390 v) [v39, v390b1] = [v39] := by
  decide

/-- C1, amended.  `version_match versions target` returns exactly the
order-preserving subsequence (a `filter`, hence a sublist) of `versions`
whose members match the target in the sense of `amendedMatches`: the
target's release tuple is a prefix of the candidate's, and each truthy
target qualifier must be exactly equal on the candidate; there is no
pre-release exclusion.  The function is total (never raises).  The
claim's own worked examples that the code satisfies are included:
`"3.9"` matches `"3.9"` and `"3.9.4"` but not `"3.10"`. -/
theorem c1_version_match_amended (versions : List Version) (target : Version) :
    version_match versions target = versions.filter (fun v => amendedMatches target v)
    ∧ (version_match versions target).Sublist versions
    ∧ version_match [v39, v394, v310] v39 = [v39, v394] := by
  refine ⟨?_, ?_, by decide⟩
  · apply List.filter_congr
    intro v _
    simp only [amendedMatches, releaseSegmentsOk_eq_isPrefixOf, Version.preTruthy]
    cases target.pre.isSome <;> cases natOptTruthy target.post
      <;> cases natOptTruthy target.dev <;> cases target.release.isPrefixOf v.release
      <;> simp [bne]
  · exact List.filter_sublist _

/-! ## Job model and the job graph resolver (`thx.core.resolve_jobs`)

`Job` keeps the fields of `thx.types.Job` that the core uses (`isolated`
and `show_output` play no role in the resolver or engine and are
omitted; names are assumed already case-folded, as `Job.__post_init__`
guarantees).  A config is modelled by its `jobs` mapping only. -/

structure Job where
  name : String
  run : List String
  requires : List String
  once : Bool
  parallel : Bool
deriving DecidableEq, Repr

structure JobConfig where
  jobs : String → Option Job

/-- The dependency-merging loop of `resolve_jobs`:
`for dep in deps: if dep not in queue: queue.append(dep)`. -/
def addUniqueDeps (queue deps : List Job) : List Job :=
  deps.foldl (fun q dep => if dep ∈ q then q else q ++ [dep]) queue

/-- The per-call loop of `thx.core.resolve_jobs`: iterate over the
requested `names`, appending into the `queue` accumulator.  The
recursive call `resolve_jobs(job.requires, config)` of the source is
abstracted as the `resolveReq` parameter, which the entry point
`resolveJobs` below ties back to the resolver itself (one fuel level
down).  Note the final `queue.append(job)` is unconditional in the
source, and is unconditional here. -/
def resolveJobsAux (config : JobConfig)
    (resolveReq : List String → Except String (List Job)) :
    List String → List Job → Except String (List Job)
  | [], queue => Except.ok queue
  | name :: rest, queue =>
    match config.jobs name with
    | none => Except.error ("unknown job " ++ name)
    | some job =>
      if job.requires.isEmpty then
        resolveJobsAux config resolveReq rest (queue ++ [job])
      else
        match resolveReq job.requires with
        | Except.error e => Except.error e
        | Except.ok deps =>
          resolveJobsAux config resolveReq rest (addUniqueDeps queue deps ++ [job])

/-- Shallow embedding of `thx.core.resolve_jobs`, starting from an empty
queue.  `fuel` bounds the recursion depth through `requires` (the
Python recurses without cycle detection); any fuel exceeding the
nesting depth of the requirement graph gives the same result as the
source. -/
def resolveJobs : Nat → List String → JobConfig → Except String (List Job)
  | 0, _, _ => Except.error "recursion limit exceeded"
  | fuel + 1, names, config =>
    resolveJobsAux config (fun reqs => resolveJobs fuel reqs config) names []

/-- Well-formedness of the jobs mapping: the key equals the stored job's
name (`validate_config` asserts exactly this). -/
def JobConfig.Wf (config : JobConfig) : Prop :=
  ∀ n j, config.jobs n = some j → j.name = n

/-- Transitive requirement: `Requires config j r` means `r` is the name
of a job in the transitive `requires` closure of `j`. -/
inductive Requires (config : JobConfig) : Job → String → Prop
  | direct {j : Job} {r : String} : r ∈ j.requires → Requires config j r
  | step {j : Job} {r' : String} {j' : Job} {r : String} :
      r' ∈ j.requires → config.jobs r' = some j' → Requires config j' r →
      Requires config j r

def namesOf (queue : List Job) : List String :=
  queue.map Job.name

/-- Position-free soundness of a queue: walking the queue left to right,
every entry's direct requirements name some job already seen (or in the
ambient `present` list). -/
def SoundFrom (present : List String) : List Job → Prop
  | [] => True
  | x :: xs => (∀ r ∈ x.requires, r ∈ present) ∧ SoundFrom (present ++ [x.name]) xs

theorem soundFrom_mono {p p' : List String} (hsub : ∀ s ∈ p, s ∈ p') :
    ∀ {d : List Job}, SoundFrom p d → SoundFrom p' d := by
  intro d
  induction d generalizing p p' with
  | nil => intro _; trivial
  | cons x xs ih =>
    intro h
    refine ⟨fun r hr => hsub r (h.1 r hr), ?_⟩
    refine ih ?_ h.2
    intro s hs
    rcases List.mem_append.mp hs with h1 | h1
    · exact List.mem_append.mpr (Or.inl (hsub s h1))
    · exact List.mem_append.mpr (Or.inr h1)

theorem soundFrom_append {a : List Job} : ∀ {p : List String} {b : List Job},
    SoundFrom p (a ++ b) ↔ SoundFrom p a ∧ SoundFrom (p ++ namesOf a) b := by
  induction a with
  | nil => intro p b; simp [SoundFrom, namesOf]
  | cons x xs ih =>
    intro p b
    show (∀ r ∈ x.requires, r ∈ p) ∧ SoundFrom (p ++ [x.name]) (xs ++ b) ↔ _
    constructor
    · rintro ⟨h1, h2⟩
      rw [ih] at h2
      exact ⟨⟨h1, h2.1⟩, by simpa [namesOf] using h2.2⟩
    · rintro ⟨⟨h1, h2⟩, h3⟩
      refine ⟨h1, ?_⟩
      rw [ih]
      exact ⟨h2, by simpa [namesOf] using h3⟩

theorem addUniqueDeps_nil (queue : List Job) : addUniqueDeps queue [] = queue := rfl

theorem addUniqueDeps_cons (queue : List Job) (x : Job) (xs : List Job) :
    addUniqueDeps queue (x :: xs)
      = addUniqueDeps (if x ∈ queue then queue else queue ++ [x]) xs := by
  simp only [addUniqueDeps, List.foldl_cons]

theorem addUniqueDeps_append (deps : List Job) : ∀ queue : List Job,
    ∃ tail, addUniqueDeps queue deps = queue ++ tail := by
  induction deps with
  | nil => intro queue; exact ⟨[], by simp [addUniqueDeps_nil]⟩
  | cons x xs ih =>
    intro queue
    rw [addUniqueDeps_cons]
    by_cases hx : x ∈ queue
    · simpa [hx] using ih queue
    · obtain ⟨t, ht⟩ := ih (queue ++ [x])
      exact ⟨[x] ++ t, by simp [hx, ht]⟩

theorem mem_addUniqueDeps_left {j : Job} {queue : List Job} (deps : List Job)
    (hj : j ∈ queue) : j ∈ addUniqueDeps queue deps := by
  obtain ⟨t, ht⟩ := addUniqueDeps_append deps queue
  rw [ht]
  exact List.mem_append.mpr (Or.inl hj)

theorem mem_addUniqueDeps_right {j : Job} {deps : List Job} : ∀ {queue : List Job},
    j ∈ deps → j ∈ addUniqueDeps queue deps := by
  induction deps with
  | nil => intro _ h; cases h
  | cons x xs ih =>
    intro queue hj
    rw [addUniqueDeps_cons]
    rcases List.mem_cons.mp hj with rfl | hj
    · by_cases hx : j ∈ queue
      · simpa [hx] using mem_addUniqueDeps_left xs hx
      · simp only [hx, if_false]
        exact mem_addUniqueDeps_left xs (List.mem_append.mpr (Or.inr (List.mem_singleton.mpr rfl)))
    · exact ih hj

theorem mem_of_mem_addUniqueDeps {j : Job} {deps : List Job} : ∀ {queue : List Job},
    j ∈ addUniqueDeps queue deps → j ∈ queue ∨ j ∈ deps := by
  induction deps with
  | nil => intro queue h; exact Or.inl (by simpa [addUniqueDeps_nil] using h)
  | cons x xs ih =>
    intro queue h
    rw [addUniqueDeps_cons] at h
    by_cases hx : x ∈ queue
    · rw [if_pos hx] at h
      rcases ih h with h | h
      · exact Or.inl h
      · exact Or.inr (List.mem_cons.mpr (Or.inr h))
    · rw [if_neg hx] at h
      rcases ih h with h | h
      · rcases List.mem_append.mp h with h | h
        · exact Or.inl h
        · exact Or.inr (List.mem_cons.mpr (Or.inl (List.mem_singleton.mp h)))
      · exact Or.inr (List.mem_cons.mpr (Or.inr h))

theorem addUniqueDeps_sound {deps : List Job} : ∀ {queue : List Job} {p : List String},
    SoundFrom [] queue → SoundFrom p deps → (∀ s ∈ p, s ∈ namesOf queue) →
    SoundFrom [] (addUniqueDeps queue deps) := by
  induction deps with
  | nil => intro queue p hq _ _; simpa [addUniqueDeps_nil] using hq
  | cons x xs ih =>
    intro queue p hq hd hsub
    rw [addUniqueDeps_cons]
    by_cases hx : x ∈ queue
    · rw [if_pos hx]
      refine ih hq hd.2 ?_
      intro s hs
      rcases List.mem_append.mp hs with hs | hs
      · exact hsub s hs
      · rw [List.mem_singleton.mp hs]
        exact List.mem_map.mpr ⟨x, hx, rfl⟩
    · rw [if_neg hx]
      have hq' : SoundFrom [] (queue ++ [x]) := by
        rw [soundFrom_append]
        refine ⟨hq, ?_, trivial⟩
        intro r hr
        simpa using hsub r (hd.1 r hr)
      refine ih hq' hd.2 ?_
      intro s hs
      rcases List.mem_append.mp hs with hs | hs
      · have := hsub s hs
        simp only [namesOf, List.map_append] at *
        exact List.mem_append.mpr (Or.inl this)
      · rw [List.mem_singleton.mp hs]
        simp [namesOf]

/-- Bundled invariants of the resolver: the output extends the incoming
queue; config-backed entries stay config-backed; queue soundness
(direct requirements named earlier) is preserved; every requested name
is covered by some entry of the output. -/
def ResolveSpec (config : JobConfig) (names : List String) (queue out : List Job) : Prop :=
  (∃ tail, out = queue ++ tail)
  ∧ ((∀ j ∈ queue, config.jobs j.name = some j) → ∀ j ∈ out, config.jobs j.name = some j)
  ∧ (SoundFrom [] queue → SoundFrom [] out)
  ∧ (∀ n ∈ names, ∃ j ∈ out, j.name = n)

theorem resolveSpec_step_empty {config : JobConfig} {name : String} {job : Job}
    {queue out : List Job} {rest : List String}
    (hj : config.jobs name = some job) (hname : job.name = name)
    (hreq' : job.requires = [])
    (ihn : ResolveSpec config rest (queue ++ [job]) out) :
    ResolveSpec config (name :: rest) queue out := by
  obtain ⟨⟨t, ht⟩, hent, hsound, hcov⟩ := ihn
  refine ⟨⟨[job] ++ t, by simp [ht]⟩, ?_, ?_, ?_⟩
  · intro he
    refine hent ?_
    intro j hjm
    rcases List.mem_append.mp hjm with hjm | hjm
    · exact he j hjm
    · rw [List.mem_singleton.mp hjm, hname]
      exact hj
  · intro hs
    refine hsound ?_
    rw [soundFrom_append]
    exact ⟨hs, by simp [hreq'], trivial⟩
  · intro n hn
    rcases List.mem_cons.mp hn with rfl | hn
    · exact ⟨job, by rw [ht]; simp, hname⟩
    · exact hcov n hn

theorem resolveSpec_step_deps {config : JobConfig} {name : String} {job : Job}
    {queue deps out : List Job} {rest : List String}
    (hj : config.jobs name = some job) (hname : job.name = name)
    (hdeps : ResolveSpec config job.requires [] deps)
    (ihn : ResolveSpec config rest (addUniqueDeps queue deps ++ [job]) out) :
    ResolveSpec config (name :: rest) queue out := by
  obtain ⟨_, hdent, hdsound, hdcov⟩ := hdeps
  have hdent' : ∀ j ∈ deps, config.jobs j.name = some j := hdent (by simp)
  have hdsound' : SoundFrom [] deps := hdsound trivial
  obtain ⟨⟨t, ht⟩, hent, hsound, hcov⟩ := ihn
  obtain ⟨t1, ht1⟩ := addUniqueDeps_append deps queue
  refine ⟨⟨t1 ++ [job] ++ t, by simp [ht, ht1]⟩, ?_, ?_, ?_⟩
  · intro he
    refine hent ?_
    intro j hjm
    rcases List.mem_append.mp hjm with hjm | hjm
    · rcases mem_of_mem_addUniqueDeps hjm with hjm | hjm
      · exact he j hjm
      · exact hdent' j hjm
    · rw [List.mem_singleton.mp hjm, hname]
      exact hj
  · intro hs
    refine hsound ?_
    rw [soundFrom_append]
    refine ⟨addUniqueDeps_sound hs hdsound' (by simp), ?_, trivial⟩
    intro r hr
    obtain ⟨jr, hjr, hjrn⟩ := hdcov r hr
    simp only [List.append_nil, namesOf]
    exact List.mem_map.mpr ⟨jr, mem_addUniqueDeps_right hjr, hjrn⟩
  · intro n hn
    rcases List.mem_cons.mp hn with rfl | hn
    · exact ⟨job, by rw [ht]; simp, hname⟩
    · exact hcov n hn

theorem resolveJobsAux_spec (config : JobConfig) (hwf : config.Wf)
    (resolveReq : List String → Except String (List Job))
    (hreq : ∀ reqs deps, resolveReq reqs = Except.ok deps → ResolveSpec config reqs [] deps) :
    ∀ names queue out, resolveJobsAux config resolveReq names queue = Except.ok out →
      ResolveSpec config names queue out := by
  intro names
  induction names with
  | nil =>
    intro queue out h
    simp only [resolveJobsAux] at h
    cases h
    exact ⟨⟨[], by simp⟩, fun he => he, fun hs => hs, by simp⟩
  | cons name rest ihn =>
    intro queue out h
    simp only [resolveJobsAux] at h
    split at h
    · cases h
    · next job hj =>
        split at h
        · next hr =>
            exact resolveSpec_step_empty hj (hwf name job hj)
              (List.isEmpty_iff.mp hr) (ihn _ _ h)
        · split at h
          · cases h
          · next deps hdeps =>
              exact resolveSpec_step_deps hj (hwf name job hj)
                (hreq job.requires deps hdeps) (ihn _ _ h)

theorem resolveJobs_spec (config : JobConfig) (hwf : config.Wf) :
    ∀ fuel names out, resolveJobs fuel names config = Except.ok out →
      ResolveSpec config names [] out := by
  intro fuel
  induction fuel with
  | zero => intro names out h; cases h
  | succ fuel ih =>
    intro names out h
    exact resolveJobsAux_spec config hwf _ (fun reqs deps hd => ih reqs deps hd) names [] out h

theorem soundFrom_get : ∀ {queue : List Job} {p : List String}, SoundFrom p queue →
    ∀ (k : Nat) (hk : k < queue.length) (r : String), r ∈ (queue.get ⟨k, hk⟩).requires →
      r ∈ p ∨ ∃ (m : Nat) (hm : m < queue.length), m < k ∧ (queue.get ⟨m, hm⟩).name = r := by
  intro queue
  induction queue with
  | nil => intro p _ k hk; exact absurd hk (by simp)
  | cons x xs ih =>
    intro p hs k hk r hr
    cases k with
    | zero => exact Or.inl (hs.1 r hr)
    | succ k' =>
      have hk' : k' < xs.length := Nat.lt_of_succ_lt_succ hk
      rcases ih hs.2 k' hk' r hr with h | h
      · rcases List.mem_append.mp h with h | h
        · exact Or.inl h
        · exact Or.inr ⟨0, Nat.succ_pos _, Nat.succ_pos _, (List.mem_singleton.mp h).symm⟩
      · obtain ⟨m, hm, hmk, hname⟩ := h
        exact Or.inr ⟨m + 1, Nat.succ_lt_succ hm, Nat.succ_lt_succ hmk, hname⟩

theorem requires_before (config : JobConfig) (queue : List Job)
    (hent : ∀ j ∈ queue, config.jobs j.name = some j)
    (hsound : SoundFrom [] queue) :
    ∀ (k : Nat) (hk : k < queue.length) (r : String),
      Requires config (queue.get ⟨k, hk⟩) r →
      ∃ (m : Nat) (hm : m < queue.length), m < k ∧ (queue.get ⟨m, hm⟩).name = r := by
  intro k
  induction k using Nat.strong_induction_on with
  | _ k ihk =>
    intro hk r hreq
    cases hreq with
    | direct hr =>
      rcases soundFrom_get hsound k hk r hr with h | h
      · cases h
      · exact h
    | step hr' hj' hreq' =>
      rename_i r' j'
      rcases soundFrom_get hsound k hk _ hr' with h | h
      · cases h
      · obtain ⟨m, hm, hmk, hname⟩ := h
        have hmem : queue.get ⟨m, hm⟩ ∈ queue := List.get_mem queue m hm
        have hentm := hent _ hmem
        rw [hname, hj'] at hentm
        have hj'eq : queue.get ⟨m, hm⟩ = j' := (Option.some.inj hentm).symm
        have hreq'' : Requires config (queue.get ⟨m, hm⟩) r := by rw [hj'eq]; exact hreq'
        obtain ⟨m', hm', hm'm, hname'⟩ := ihk m hmk hm r hreq''
        exact ⟨m', hm', Nat.lt_trans hm'm hmk, hname'⟩

/-- Jobs for the duplicate-queue counterexample: `a` has no
requirements (and is also marked `once`, reused by the engine
counterexample later); `b` requires `a`. -/
def jobA : Job := ⟨"a", ["echo a"], [], true, false⟩

def jobB : Job := ⟨"b", ["echo b"], ["a"], false, false⟩

def cfgBA : JobConfig :=
  ⟨fun n => if n = "a" then some jobA else if n = "b" then some jobB else none⟩

theorem cfgBA_wf : JobConfig.Wf cfgBA := by
  intro n j h
  simp only [cfgBA] at h
  split at h
  · next heq => cases h; rw [heq]; rfl
  · split at h
    · next heq => cases h; rw [heq]; rfl
    · cases h

/-- C2, counterexample.  Resolving `["b", "a"]` where `b.requires =
["a"]` and `a` has no requirements — every requested name exists and the
requirement graph is acyclic — yields the queue `[a, b, a]`, which
contains the job `a` twice: the source's final `queue.append(job)` is
unconditional, so a requested job that already entered the queue as a
dependency is appended again, contradicting the claim's "no duplicate
jobs". -/
theorem c2_counterexample :
    resolveJobs 2 ["b", "a"] cfgBA = Except.ok [jobA, jobB, jobA]
    ∧ ¬ ([jobA, jobB, jobA] : List Job).Nodup := by
  exact ⟨rfl, by decide⟩

/-- C2, amended.  For every fuel, requested-name sequence and
well-formed config on which `resolveJobs` succeeds (in particular for
any acyclic, fully defined requirement graph with enough fuel), the
returned queue is deterministic (it is a function), covers every
requested name, and every entry's transitive dependencies (`Requires`)
appear strictly before that entry; dependencies already queued are not
re-queued, but a requested job already present is appended again, so
the queue may contain duplicate entries for requested jobs (see the
counterexample).  Resolving `["publish"]` with `publish.requires =
["test", "lint"]` still yields `[test, lint, publish]` with no
duplicates (see the witness). -/
theorem c2_resolve_jobs_amended (config : JobConfig) (fuel : Nat) (names : List String)
    (queue : List Job) (hwf : config.Wf)
    (h : resolveJobs fuel names config = Except.ok queue) :
    (∀ n ∈ names, ∃ j ∈ queue, j.name = n)
    ∧ (∀ (k : Nat) (hk : k < queue.length) (r : String),
        Requires config (queue.get ⟨k, hk⟩) r →
        ∃ (m : Nat) (hm : m < queue.length), m < k ∧ (queue.get ⟨m, hm⟩).name = r) := by
  obtain ⟨_, hent, hsound, hcov⟩ := resolveJobs_spec config hwf fuel names queue h
  have hent' := hent (by intro j hj; cases hj)
  have hsound' := hsound trivial
  exact ⟨hcov, requires_before config queue hent' hsound'⟩

def jobTest : Job := ⟨"test", ["pytest"], [], false, false⟩

def jobLint : Job := ⟨"lint", ["flake8"], [], false, false⟩

def jobPublish : Job := ⟨"publish", ["flit publish"], ["test", "lint"], false, false⟩

def cfgPub : JobConfig :=
  ⟨fun n =>
    if n = "publish" then some jobPublish
    else if n = "test" then some jobTest
    else if n = "lint" then some jobLint
    else none⟩

theorem cfgPub_wf : JobConfig.Wf cfgPub := by
  intro n j h
  simp only [cfgPub] at h
  split at h
  · next heq => cases h; rw [heq]; rfl
  · split at h
    · next heq => cases h; rw [heq]; rfl
    · split at h
      · next heq => cases h; rw [heq]; rfl
      · cases h

/-- C2, witness: the amended theorem applied to the claim's own
publish/test/lint instance, whose resolution computes to
`[test, lint, publish]`. -/
theorem c2_witness :
    resolveJobs 2 ["publish"] cfgPub = Except.ok [jobTest, jobLint, jobPublish]
    ∧ ((∀ n ∈ ["publish"], ∃ j ∈ [jobTest, jobLint, jobPublish], j.name = n)
      ∧ (∀ (k : Nat) (hk : k < ([jobTest, jobLint, jobPublish] : List Job).length) (r : String),
          Requires cfgPub (([jobTest, jobLint, jobPublish] : List Job).get ⟨k, hk⟩) r →
          ∃ (m : Nat) (hm : m < ([jobTest, jobLint, jobPublish] : List Job).length),
            m < k ∧ (([jobTest, jobLint, jobPublish] : List Job).get ⟨m, hm⟩).name = r)) :=
  ⟨rfl, c2_resolve_jobs_amended cfgPub 2 ["publish"] [jobTest, jobLint, jobPublish] cfgPub_wf rfl⟩

/-! ## Execution types (`thx.types`) and the provisioning pipeline

`CommandResult` mirrors `thx.types.CommandResult` (stdout/stderr are
already decoded text; the oracles below produce them directly).
`Context` carries the fields that `thx.context.resolve_contexts`
constructs (`python_version`, `python_path`, `venv`, `builder`, `live`);
paths are plain strings. -/

structure CommandResult where
  exit_code : Int
  stdout : String
  stderr : String
deriving DecidableEq, Repr

/-- `CommandResult.success` property: exit code zero. -/
def CommandResult.success (r : CommandResult) : Bool :=
  r.exit_code == 0

/-- `CommandResult.error` property: non-zero exit code. -/
def CommandResult.error (r : CommandResult) : Bool :=
  r.exit_code != 0

/-- Builder kind (`thx.types.Builder`). `determine_builder` never hands
`auto` to a context, so contexts carry `pip` or `uv` after resolution. -/
inductive Builder
  | auto
  | pip
  | uv
deriving DecidableEq, Repr

structure Context where
  python_version : Version
  python_path : Option String
  venv : String
  builder : Builder
  live : Bool
deriving DecidableEq, Repr

/-- `thx.types.Step` / `thx.runner.JobStep`: one rendered command bound
to a job and context. -/
structure Step where
  cmd : List String
  job : Job
  context : Context
deriving DecidableEq, Repr

/-- The `Event` union of `thx.types`.  `VenvCreate`, `VenvReady`,
`VenvError`, `Start` and `Result` are modelled; `Reset`/`Fail` are
emitted only by the watch controller / `run()`, outside the engine
traces studied here.  The `CommandError` payload of `VenvError` is
abstracted away (no theorem inspects it); `Result` carries the
`CommandResult` fields. -/
inductive Event
  | venvCreate (context : Context) (message : String)
  | venvReady (context : Context)
  | venvError (context : Context)
  | start (context : Context) (step : Step)
  | result (context : Context) (step : Step) (cr : CommandResult)
deriving DecidableEq, Repr

def Event.isVenvError : Event → Bool
  | .venvError _ => true
  | _ => false

def Event.isVenvEvent : Event → Bool
  | .venvCreate _ _ => true
  | .venvReady _ => true
  | .venvError _ => true
  | _ => false

def Event.isJobEvent : Event → Bool
  | .start _ _ => true
  | .result _ _ _ => true
  | _ => false

/-- A `Result` event whose command failed (`not event.success`). -/
def Event.isFailResult : Event → Bool
  | .result _ _ cr => cr.error
  | _ => false

/-- The job a `Start`/`Result` event belongs to (through its step). -/
def Event.jobOf : Event → Option Job
  | .start _ s => some s.job
  | .result _ s _ => some s.job
  | _ => none

/-- `thx.runner.check_command` on the result of the underlying
`run_command` call: raises `CommandError` (here: `Except.error`) iff the
result has a non-zero exit code. -/
def check_command (r : CommandResult) : Except CommandResult CommandResult :=
  if r.error then Except.error r else Except.ok r

/-- Tail of `prepare_virtualenv_pip`: install the local project
(`check_command`), write the timestamp, yield `VenvReady`; a
`CommandError` is caught by the enclosing `try` and becomes a single
`VenvError`. -/
def pipInstallProject (c : Context) (rProj : CommandResult) : List Event :=
  Event.venvCreate c "installing project" ::
    (match check_command rProj with
     | Except.error _ => [Event.venvError c]
     | Except.ok _ => [Event.venvReady c])

/-- Shallow embedding of `thx.context.prepare_virtualenv_pip`.  The
four `check_command` invocations are fed by oracle results `rVenv`
(create the venv; skipped for `live` contexts, which call
`venv.create` in-process), `rPip` (upgrade pip/setuptools), `rReqs`
(install requirement files; only when `reqs` says the project has any)
and `rProj` (install the local project).  `identify_venv` and the
in-place context update are outside the evented behaviour and not
modelled; a failing in-process `venv.create` for live contexts would
raise (not caught as `CommandError`) and is likewise outside these
traces. -/
def prepare_virtualenv_pip (c : Context) (reqs : Bool)
    (rVenv rPip rReqs rProj : CommandResult) : List Event :=
  match (if c.live then Except.ok rVenv else check_command rVenv) with
  | Except.error _ => [Event.venvError c]
  | Except.ok _ =>
    Event.venvCreate c "upgrading pip" ::
      (match check_command rPip with
       | Except.error _ => [Event.venvError c]
       | Except.ok _ =>
         if reqs then
           Event.venvCreate c "installing requirements" ::
             (match check_command rReqs with
              | Except.error _ => [Event.venvError c]
              | Except.ok _ => pipInstallProject c rProj)
         else pipInstallProject c rProj)

/-- Tail of `prepare_virtualenv_uv`: install the local project via uv,
write the timestamp, yield `VenvReady`. -/
def uvInstallProject (c : Context) (rProj : CommandResult) : List Event :=
  Event.venvCreate c "installing project via uv" ::
    (match check_command rProj with
     | Except.error _ => [Event.venvError c]
     | Except.ok _ => [Event.venvReady c])

/-- Shallow embedding of `thx.context.prepare_virtualenv_uv` with
oracle results for the `uv venv` creation (`rVenv`), the requirements
install (`rReqs`, only when `reqs`) and the project install (`rProj`).
The `ConfigError` raised when `uv` disappears from `PATH` escapes the
generator uncaught and is outside these traces (the builder was
already resolved to uv by `determine_builder`). -/
def prepare_virtualenv_uv (c : Context) (reqs : Bool)
    (rVenv rReqs rProj : CommandResult) : List Event :=
  match check_command rVenv with
  | Except.error _ => [Event.venvError c]
  | Except.ok _ =>
    if reqs then
      Event.venvCreate c "installing requirements via uv" ::
        (match check_command rReqs with
         | Except.error _ => [Event.venvError c]
         | Except.ok _ => uvInstallProject c rProj)
    else uvInstallProject c rProj

/-- All `check_command` invocations that `prepare_virtualenv_pip`
actually attempts succeed. -/
def pipOk (live reqs : Bool) (rVenv rPip rReqs rProj : CommandResult) : Bool :=
  (live || !rVenv.error) && !rPip.error && (!reqs || !rReqs.error) && !rProj.error

/-- All `check_command` invocations that `prepare_virtualenv_uv`
actually attempts succeed. -/
def uvOk (reqs : Bool) (rVenv rReqs rProj : CommandResult) : Bool :=
  !rVenv.error && (!reqs || !rReqs.error) && !rProj.error

/-- C7 (confirmed).  For every context and every outcome of the
provisioning commands, both builders' provisioning streams behave as
claimed: when some attempted command fails (`check_command` raises
`CommandError`), the stream contains exactly one `VenvError` event, ends
with it, and never emits `VenvReady`; when every attempted command
succeeds, the stream contains no `VenvError` and ends with `VenvReady`. -/
theorem c7_provisioning_events (c : Context) (reqs : Bool)
    (rVenv rPip rReqs rProj : CommandResult) :
    ((prepare_virtualenv_pip c reqs rVenv rPip rReqs rProj).countP Event.isVenvError
        = (if pipOk c.live reqs rVenv rPip rReqs rProj then 0 else 1)
      ∧ (prepare_virtualenv_pip c reqs rVenv rPip rReqs rProj).getLast?
        = some (if pipOk c.live reqs rVenv rPip rReqs rProj
                then Event.venvReady c else Event.venvError c)
      ∧ (if pipOk c.live reqs rVenv rPip rReqs rProj
         then Event.venvError c ∉ prepare_virtualenv_pip c reqs rVenv rPip rReqs rProj
         else Event.venvReady c ∉ prepare_virtualenv_pip c reqs rVenv rPip rReqs rProj))
    ∧ ((prepare_virtualenv_uv c reqs rVenv rReqs rProj).countP Event.isVenvError
        = (if uvOk reqs rVenv rReqs rProj then 0 else 1)
      ∧ (prepare_virtualenv_uv c reqs rVenv rReqs rProj).getLast?
        = some (if uvOk reqs rVenv rReqs rProj
                then Event.venvReady c else Event.venvError c)
      ∧ (if uvOk reqs rVenv rReqs rProj
         then Event.venvError c ∉ prepare_virtualenv_uv c reqs rVenv rReqs rProj
         else Event.venvReady c ∉ prepare_virtualenv_uv c reqs rVenv rReqs rProj)) := by
  cases hl : c.live <;> cases reqs <;> cases hv : rVenv.error
    <;> cases hp : rPip.error <;> cases hr : rReqs.error <;> cases hj : rProj.error
    <;> simp [prepare_virtualenv_pip, prepare_virtualenv_uv, pipInstallProject,
      uvInstallProject, check_command, pipOk, uvOk, hl, hv, hp, hr, hj,
      Event.isVenvError, List.countP_cons]

/-! ## Fan-in: the `as_generated` merge

`aioitertools.asyncio.as_generated(gens)` merges the event streams of
`gens` by readiness: each generator's own order is preserved, with no
ordering guarantee across generators, and (as consumed by `thx.core` and
`thx.context`, which never break out of the loop) every generator is
drained to completion.  `Merge ls out` holds iff `out` is such an
interleaving of the streams `ls`. -/

inductive Merge : List (List α) → List α → Prop
  | nil (ls : List (List α)) : (∀ l ∈ ls, l = []) → Merge ls []
  | cons (ls : List (List α)) (i : Nat) (x : α) (rest : List α) (out : List α) :
      ls[i]? = some (x :: rest) → Merge (ls.set i rest) out → Merge ls (x :: out)

theorem merge_cons_nil_left {ls : List (List α)} {out : List α}
    (h : Merge ls out) : Merge ([] :: ls) out := by
  induction h with
  | nil ls hls =>
    refine Merge.nil _ ?_
    intro l hl
    rcases List.mem_cons.mp hl with rfl | hl
    · rfl
    · exact hls l hl
  | cons ls i x rest out hget _ ih =>
    exact Merge.cons _ (i + 1) x rest out (by simpa using hget) (by simpa using ih)

theorem merge_append_left {l₀ : List α} : ∀ {ls : List (List α)} {out : List α},
    Merge ls out → Merge (l₀ :: ls) (l₀ ++ out) := by
  induction l₀ with
  | nil => intro ls out h; simpa using merge_cons_nil_left h
  | cons x xs ih =>
    intro ls out h
    exact Merge.cons ((x :: xs) :: ls) 0 x xs (xs ++ out) (by simp) (ih h)

theorem merge_flatten : ∀ ls : List (List α), Merge ls ls.flatten := by
  intro ls
  induction ls with
  | nil => exact Merge.nil [] (by intro l hl; cases hl)
  | cons l ls ih => simpa using merge_append_left ih

theorem merge_singleton (l : List α) : Merge [l] l := by
  simpa using merge_flatten [l]

theorem mem_of_getElem?_eq {β : Type _} {ls : List β} {i : Nat} {a : β}
    (h : ls[i]? = some a) : a ∈ ls := by
  obtain ⟨hlt, heq⟩ := List.getElem?_eq_some_iff.mp h
  exact heq ▸ List.getElem_mem hlt

theorem flatten_set_perm : ∀ (ls : List (List α)) (i : Nat) (x : α) (rest : List α),
    ls[i]? = some (x :: rest) → ls.flatten.Perm (x :: (ls.set i rest).flatten) := by
  intro ls
  induction ls with
  | nil => intro i x rest h; simp at h
  | cons l ls ih =>
    intro i x rest h
    cases i with
    | zero =>
      simp only [List.getElem?_cons_zero, Option.some.injEq] at h
      subst h
      simp
    | succ i' =>
      simp only [List.getElem?_cons_succ] at h
      have hp := ih i' x rest h
      have h1 : (l ++ ls.flatten).Perm (l ++ (x :: (ls.set i' rest).flatten)) :=
        hp.append_left l
      have h2 : (l ++ (x :: (ls.set i' rest).flatten)).Perm
          (x :: (l ++ (ls.set i' rest).flatten)) := List.perm_middle
      simpa using h1.trans h2

theorem merge_perm_flatten {ls : List (List α)} {out : List α}
    (h : Merge ls out) : out.Perm ls.flatten := by
  induction h with
  | nil ls hls =>
    have hfl : ls.flatten = [] := List.flatten_eq_nil_iff.mpr hls
    rw [hfl]
  | cons ls i x rest out hget _ ih =>
    exact ((ih.cons x).trans (flatten_set_perm ls i x rest hget).symm)

theorem merge_countP (p : α → Bool) {ls : List (List α)} {out : List α}
    (h : Merge ls out) : out.countP p = (ls.map (List.countP p)).sum := by
  rw [(merge_perm_flatten h).countP_eq]
  exact List.countP_flatten p ls

theorem merge_mem {ls : List (List α)} {out : List α} (h : Merge ls out) (e : α) :
    e ∈ out ↔ ∃ l ∈ ls, e ∈ l := by
  rw [(merge_perm_flatten h).mem_iff]
  exact List.mem_flatten

theorem merge_sublist {ls : List (List α)} {out : List α} (h : Merge ls out) :
    ∀ (i : Nat) (l : List α), ls[i]? = some l → l.Sublist out := by
  induction h with
  | nil ls hls =>
    intro i l hget
    rw [hls l (mem_of_getElem?_eq hget)]
  | cons ls k x rest out hget hm ih =>
    intro i l hgi
    by_cases hik : i = k
    · subst hik
      rw [hget] at hgi
      cases hgi
      have hlt : i < ls.length := (List.getElem?_eq_some_iff.mp hget).1
      have hset : (ls.set i rest)[i]? = some rest := by
        simp [List.getElem?_set, hlt]
      exact (ih i rest hset).cons₂ x
    · have hset : (ls.set k rest)[i]? = ls[i]? := List.getElem?_set_ne (fun h => hik h.symm)
      exact (ih i l (by rw [hset]; exact hgi)).cons x

theorem merge_filter_eq (p : α → Bool) {ls : List (List α)} {out : List α}
    (h : Merge ls out) :
    ∀ (i : Nat) (li : List α), ls[i]? = some li →
      (∀ (j : Nat) (lj : List α), j ≠ i → ls[j]? = some lj → ∀ e ∈ lj, p e = false) →
      out.filter p = li.filter p := by
  induction h with
  | nil ls hls =>
    intro i li hget _
    rw [hls li (mem_of_getElem?_eq hget)]
  | cons ls k x rest out hget hm ih =>
    intro i li hgi hothers
    by_cases hik : k = i
    · subst hik
      rw [hget] at hgi
      cases hgi
      have hlt : k < ls.length := (List.getElem?_eq_some_iff.mp hget).1
      have hset : (ls.set k rest)[k]? = some rest := by
        simp [List.getElem?_set, hlt]
      have ih' := ih k rest hset ?_
      · rw [List.filter_cons, List.filter_cons, ih']
      · intro j lj hji hgj e he
        have hne : (ls.set k rest)[j]? = ls[j]? := List.getElem?_set_ne (fun h => hji h.symm)
        exact hothers j lj hji (by rw [← hne]; exact hgj) e he
    · have hx : p x = false := by
        refine hothers k (x :: rest) hik hget x ?_
        exact List.mem_cons_self x rest
      have hset : (ls.set k rest)[i]? = ls[i]? := List.getElem?_set_ne hik
      have ih' := ih i li (by rw [hset]; exact hgi) ?_
      · rw [List.filter_cons_of_neg (by simp [hx]), ih']
      · intro j lj hji hgj e he
        by_cases hjk : j = k
        · subst hjk
          have hjj : (ls.set j rest)[j]? = some rest := by
            have hlt : j < ls.length := (List.getElem?_eq_some_iff.mp hget).1
            simp [List.getElem?_set, hlt]
          rw [hjj] at hgj
          cases hgj
          refine hothers j (x :: rest) hji hget e ?_
          exact List.mem_cons_of_mem x he
        · have hne : (ls.set k rest)[j]? = ls[j]? := List.getElem?_set_ne (fun h => hjk h.symm)
          rw [hne] at hgj
          exact hothers j lj hji hgj e he

/-! ## The execution engine (`thx.core.run_jobs`)

`run_jobs` drains provisioning for all contexts, then walks the job
queue; per job it fans out one `run_job_on_context` generator per
applicable context (only the first context when `job.once`), merges them
with `as_generated`, and stops the queue after the first job whose merge
contained a non-success `Result`.  Step outcomes come from the `exec`
oracle (deterministic per `Step`, as `Step.run` awaits
`run_command(self.cmd, self.context)`); step preparation
(`prepare_job`) is abstracted as the `prep` parameter, and theorems that
need it assume `PrepWf` — true of the real `prepare_job`, which tags
every step with the job and context it was built for.  A `prepare_job`
that raises (bad template) would abort the whole run exceptionally;
those runs produce no trace here. -/

structure ProvParams where
  fresh : Bool
  reqs : Bool
  rVenv : CommandResult
  rPip : CommandResult
  rReqs : CommandResult
  rProj : CommandResult
deriving DecidableEq, Repr

/-- Shallow embedding of `thx.context.prepare_virtualenv`: reuse the
venv (`VenvReady` immediately) unless `needs_update` reported staleness
(the `fresh` oracle field); otherwise announce creation and delegate to
the builder-specific pipeline chosen by `context.builder`
(`determine_builder` never yields `auto` for a context; the
`ConfigError` raise for an unknown builder is unreachable and `auto`
is mapped to the pip pipeline here). -/
def prepare_virtualenv (c : Context) (p : ProvParams) : List Event :=
  if p.fresh then
    Event.venvCreate c "creating virtualenv" ::
      (match c.builder with
       | Builder.uv => prepare_virtualenv_uv c p.reqs p.rVenv p.rReqs p.rProj
       | _ => prepare_virtualenv_pip c p.reqs p.rVenv p.rPip p.rReqs p.rProj)
  else [Event.venvReady c]

/-- The per-context provisioning streams that
`thx.context.prepare_contexts` hands to `as_generated`. -/
def prov_traces (penv : Context → ProvParams) (contexts : List Context) : List (List Event) :=
  contexts.map (fun c => prepare_virtualenv c (penv c))

/-- `thx.core.run_step_on_context`: yield `Start`, await the step, yield
its `Result`. -/
def run_step_on_context (exec : Step → CommandResult) (step : Step) (context : Context) :
    List Event :=
  [Event.start context step, Event.result context step (exec step)]

/-- The sequential branch of `thx.core.run_job_on_context`: steps in
declared order, stopping (after yielding the failing `Result`) at the
first non-success result. -/
def runStepsSeq (exec : Step → CommandResult) (context : Context) : List Step → List Event
  | [] => []
  | step :: rest =>
    Event.start context step :: Event.result context step (exec step) ::
      (if (exec step).success then runStepsSeq exec context rest else [])

/-- Traces of `thx.core.run_job_on_context` for one job/context pair:
sequential when `parallel` is false, otherwise any `as_generated`
interleaving of the per-step streams. -/
inductive JobCtxTrace (exec : Step → CommandResult) (prep : Job → Context → List Step)
    (job : Job) (context : Context) : List Event → Prop
  | seq : job.parallel = false →
      JobCtxTrace exec prep job context (runStepsSeq exec context (prep job context))
  | par (tr : List Event) : job.parallel = true →
      Merge ((prep job context).map (fun s => run_step_on_context exec s context)) tr →
      JobCtxTrace exec prep job context tr

/-- Traces of one iteration of the job loop of `thx.core.run_jobs`: a
single generator against the first context for a `once` job (the
Python indexes `contexts[0]`, so no trace exists for a `once` job with
no contexts — the source would raise `IndexError`), else one generator
per context, merged by readiness. -/
inductive EntryTrace (exec : Step → CommandResult) (prep : Job → Context → List Step)
    (contexts : List Context) (job : Job) : List Event → Prop
  | once (c0 : Context) (cs : List Context) (tr : List Event) :
      job.once = true → contexts = c0 :: cs →
      JobCtxTrace exec prep job c0 tr →
      EntryTrace exec prep contexts job tr
  | multi (trs : List (List Event)) (tr : List Event) :
      job.once = false →
      List.Forall₂ (fun c t => JobCtxTrace exec prep job c t) contexts trs →
      Merge trs tr →
      EntryTrace exec prep contexts job tr

/-- Traces of the job-queue loop of `thx.core.run_jobs`: each job's
merged events are appended; the loop consumes the current job's merge
to completion and returns right after it if any of its `Result` events
was non-success (the `success` flag). -/
inductive JobsTrace (exec : Step → CommandResult) (prep : Job → Context → List Step)
    (contexts : List Context) : List Job → List Event → Prop
  | nil : JobsTrace exec prep contexts [] []
  | consOk (job : Job) (rest : List Job) (tr trs : List Event) :
      EntryTrace exec prep contexts job tr →
      (∀ e ∈ tr, e.isFailResult = false) →
      JobsTrace exec prep contexts rest trs →
      JobsTrace exec prep contexts (job :: rest) (tr ++ trs)
  | consFail (job : Job) (rest : List Job) (tr : List Event) :
      EntryTrace exec prep contexts job tr →
      (∃ e ∈ tr, e.isFailResult = true) →
      JobsTrace exec prep contexts (job :: rest) tr

/-- The context-trimming prelude of `run_jobs`: when every job in the
queue is `once`, only the first context is kept. -/
def engineContexts (jobs : List Job) (contexts : List Context) : List Context :=
  if jobs.all (fun j => j.once) then contexts.take 1 else contexts

/-- Traces of `thx.core.run_jobs`: first every provisioning stream is
drained through the `prepare_contexts` merge (forwarding all events);
if any was a `VenvError` the run returns there, otherwise the job loop
follows. -/
inductive RunJobsTrace (exec : Step → CommandResult) (prep : Job → Context → List Step)
    (penv : Context → ProvParams) (jobs : List Job) (contexts : List Context) :
    List Event → Prop
  | setupFail (provTr : List Event) :
      Merge (prov_traces penv (engineContexts jobs contexts)) provTr →
      (∃ e ∈ provTr, e.isVenvError = true) →
      RunJobsTrace exec prep penv jobs contexts provTr
  | run (provTr jobsTr : List Event) :
      Merge (prov_traces penv (engineContexts jobs contexts)) provTr →
      (∀ e ∈ provTr, e.isVenvError = false) →
      JobsTrace exec prep (engineContexts jobs contexts) jobs jobsTr →
      RunJobsTrace exec prep penv jobs contexts (provTr ++ jobsTr)

/-- `prepare_job` tags every step it builds with its own job and
context (true of `thx.runner.prepare_job`). -/
def PrepWf (prep : Job → Context → List Step) : Prop :=
  ∀ j c, ∀ s ∈ prep j c, s.job = j ∧ s.context = c

def Event.isStartOfStep (s : Step) : Event → Bool
  | .start _ s' => s' == s
  | _ => false

def Event.isResultOfStep (s : Step) : Event → Bool
  | .result _ s' _ => s' == s
  | _ => false

/-- A `Start` or `Result` event of job `j` on context `c` (the event's
own context field, which the engine sets to the generator's context). -/
def Event.isOfJobCtx (j : Job) (c : Context) : Event → Bool
  | .start c' s => c' == c && s.job == j
  | .result c' s _ => c' == c && s.job == j
  | _ => false

theorem venvEvent_not_jobEvent {e : Event} (h : e.isVenvEvent = true) :
    e.isJobEvent = false := by
  cases e <;> simp_all [Event.isVenvEvent, Event.isJobEvent]

theorem venvEvent_not_failResult {e : Event} (h : e.isVenvEvent = true) :
    e.isFailResult = false := by
  cases e <;> simp_all [Event.isVenvEvent, Event.isFailResult]

theorem pip_all_venvEvents (c : Context) (reqs : Bool)
    (rVenv rPip rReqs rProj : CommandResult) :
    ∀ e ∈ prepare_virtualenv_pip c reqs rVenv rPip rReqs rProj, e.isVenvEvent = true := by
  intro e he
  cases hl : c.live <;> cases reqs <;> cases hv : rVenv.error
    <;> cases hp : rPip.error <;> cases hr : rReqs.error <;> cases hj : rProj.error
    <;> simp [prepare_virtualenv_pip, pipInstallProject, check_command,
      hl, hv, hp, hr, hj] at he
    <;> rcases he with rfl | rfl | rfl | rfl | rfl | rfl <;> rfl

theorem uv_all_venvEvents (c : Context) (reqs : Bool)
    (rVenv rReqs rProj : CommandResult) :
    ∀ e ∈ prepare_virtualenv_uv c reqs rVenv rReqs rProj, e.isVenvEvent = true := by
  intro e he
  cases reqs <;> cases hv : rVenv.error <;> cases hr : rReqs.error <;> cases hj : rProj.error
    <;> simp [prepare_virtualenv_uv, uvInstallProject, check_command, hv, hr, hj] at he
    <;> rcases he with rfl | rfl | rfl | rfl | rfl <;> rfl

theorem prepare_virtualenv_all_venvEvents (c : Context) (p : ProvParams) :
    ∀ e ∈ prepare_virtualenv c p, e.isVenvEvent = true := by
  intro e he
  rw [prepare_virtualenv] at he
  by_cases hf : p.fresh
  · rw [if_pos hf] at he
    rcases List.mem_cons.mp he with rfl | he
    · rfl
    · cases hb : c.builder <;> rw [hb] at he
      · exact pip_all_venvEvents c p.reqs p.rVenv p.rPip p.rReqs p.rProj e he
      · exact pip_all_venvEvents c p.reqs p.rVenv p.rPip p.rReqs p.rProj e he
      · exact uv_all_venvEvents c p.reqs p.rVenv p.rReqs p.rProj e he
  · rw [if_neg hf] at he
    rw [List.mem_singleton.mp he]
    rfl

theorem prov_traces_all_venvEvents (penv : Context → ProvParams) (contexts : List Context)
    {provTr : List Event} (h : Merge (prov_traces penv contexts) provTr) :
    ∀ e ∈ provTr, e.isVenvEvent = true := by
  intro e he
  obtain ⟨l, hl, hel⟩ := (merge_mem h e).mp he
  obtain ⟨c, _, rfl⟩ := List.mem_map.mp hl
  exact prepare_virtualenv_all_venvEvents c (penv c) e hel

theorem runStepsSeq_events (exec : Step → CommandResult) (c : Context) :
    ∀ (steps : List Step) (e : Event), e ∈ runStepsSeq exec c steps →
      ∃ s ∈ steps, e = Event.start c s ∨ ∃ cr, e = Event.result c s cr := by
  intro steps
  induction steps with
  | nil => intro e he; cases he
  | cons st rest ih =>
    intro e he
    rw [runStepsSeq] at he
    rcases List.mem_cons.mp he with rfl | he
    · exact ⟨st, List.mem_cons_self st rest, Or.inl rfl⟩
    · rcases List.mem_cons.mp he with rfl | he
      · exact ⟨st, List.mem_cons_self st rest, Or.inr ⟨exec st, rfl⟩⟩
      · by_cases hs : (exec st).success
        · rw [if_pos hs] at he
          obtain ⟨s, hsm, hshape⟩ := ih e he
          exact ⟨s, List.mem_cons_of_mem st hsm, hshape⟩
        · rw [if_neg hs] at he
          cases he

theorem jobCtxTrace_events {exec : Step → CommandResult} {prep : Job → Context → List Step}
    {job : Job} {c : Context} {tr : List Event} (h : JobCtxTrace exec prep job c tr) :
    ∀ e ∈ tr, ∃ s ∈ prep job c, e = Event.start c s ∨ ∃ cr, e = Event.result c s cr := by
  cases h with
  | seq hpar => exact fun e he => runStepsSeq_events exec c (prep job c) e he
  | par tr hpar hm =>
    intro e he
    obtain ⟨l, hl, hel⟩ := (merge_mem hm e).mp he
    obtain ⟨s, hsm, rfl⟩ := List.mem_map.mp hl
    rcases List.mem_cons.mp hel with rfl | hel
    · exact ⟨s, hsm, Or.inl rfl⟩
    · rcases List.mem_cons.mp hel with rfl | hel
      · exact ⟨s, hsm, Or.inr ⟨exec s, rfl⟩⟩
      · cases hel

theorem forall₂_getElem?_right {α β : Type _} {R : α → β → Prop} :
    ∀ {as : List α} {bs : List β}, List.Forall₂ R as bs →
      ∀ {i : Nat} {b : β}, bs[i]? = some b → ∃ a, as[i]? = some a ∧ R a b := by
  intro as bs h
  induction h with
  | nil => intro i b hb; simp at hb
  | @cons a b as bs hR hrest ih =>
    intro i bb hb
    cases i with
    | zero =>
      simp only [List.getElem?_cons_zero, Option.some.injEq] at hb
      exact ⟨a, by simp, hb ▸ hR⟩
    | succ i' =>
      simp only [List.getElem?_cons_succ] at hb ⊢
      exact ih hb

theorem forall₂_getElem?_left {α β : Type _} {R : α → β → Prop} :
    ∀ {as : List α} {bs : List β}, List.Forall₂ R as bs →
      ∀ {i : Nat} {a : α}, as[i]? = some a → ∃ b, bs[i]? = some b ∧ R a b := by
  intro as bs h
  induction h with
  | nil => intro i a ha; simp at ha
  | @cons a b as bs hR hrest ih =>
    intro i aa ha
    cases i with
    | zero =>
      simp only [List.getElem?_cons_zero, Option.some.injEq] at ha
      exact ⟨b, by simp, ha ▸ hR⟩
    | succ i' =>
      simp only [List.getElem?_cons_succ] at ha ⊢
      exact ih ha

theorem entryTrace_events {exec : Step → CommandResult} {prep : Job → Context → List Step}
    {ctxs : List Context} {job : Job} {tr : List Event}
    (h : EntryTrace exec prep ctxs job tr) :
    ∀ e ∈ tr, ∃ c s, s ∈ prep job c
      ∧ (if job.once then ctxs.head? = some c else c ∈ ctxs)
      ∧ (e = Event.start c s ∨ ∃ cr, e = Event.result c s cr) := by
  cases h with
  | once c0 cs tr honce hctx hjt =>
    intro e he
    obtain ⟨s, hsm, hshape⟩ := jobCtxTrace_events hjt e he
    exact ⟨c0, s, hsm, by rw [honce, hctx]; simp, hshape⟩
  | multi trs tr honce hf hm =>
    intro e he
    obtain ⟨l, hl, hel⟩ := (merge_mem hm e).mp he
    obtain ⟨i, hli⟩ := List.mem_iff_getElem?.mp hl
    obtain ⟨c, hci, hjt⟩ := forall₂_getElem?_right hf hli
    obtain ⟨s, hsm, hshape⟩ := jobCtxTrace_events hjt e hel
    exact ⟨c, s, hsm, by rw [honce]; simpa using mem_of_getElem?_eq hci, hshape⟩

theorem jobsTrace_events {exec : Step → CommandResult} {prep : Job → Context → List Step}
    {ctxs : List Context} {jl : List Job} {tr : List Event}
    (h : JobsTrace exec prep ctxs jl tr) :
    ∀ e ∈ tr, ∃ j ∈ jl, ∃ c s, s ∈ prep j c
      ∧ (if j.once then ctxs.head? = some c else c ∈ ctxs)
      ∧ (e = Event.start c s ∨ ∃ cr, e = Event.result c s cr) := by
  induction h with
  | nil => intro e he; cases he
  | consOk job rest tr trs hub hok _ ih =>
    intro e he
    rcases List.mem_append.mp he with he | he
    · obtain ⟨c, s, hsm, hctx, hshape⟩ := entryTrace_events hub e he
      exact ⟨job, List.mem_cons_self job rest, c, s, hsm, hctx, hshape⟩
    · obtain ⟨j, hj, rest'⟩ := ih e he
      exact ⟨j, List.mem_cons_of_mem job hj, rest'⟩
  | consFail job rest tr hub hfail =>
    intro e he
    obtain ⟨c, s, hsm, hctx, hshape⟩ := entryTrace_events hub e he
    exact ⟨job, List.mem_cons_self job rest, c, s, hsm, hctx, hshape⟩

theorem engineContexts_head (jobs : List Job) (contexts : List Context) :
    (engineContexts jobs contexts).head? = contexts.head? := by
  rw [engineContexts]
  by_cases h : jobs.all (fun j => j.once)
  · rw [if_pos h]
    cases contexts <;> rfl
  · rw [if_neg h]

theorem entryTrace_jobOf {exec : Step → CommandResult} {prep : Job → Context → List Step}
    {ctxs : List Context} {j : Job} {tr : List Event}
    (h : EntryTrace exec prep ctxs j tr) (hwf : PrepWf prep) :
    ∀ e ∈ tr, e.isJobEvent = true ∧ e.jobOf = some j := by
  intro e he
  obtain ⟨c, s, hsm, _, hshape⟩ := entryTrace_events h e he
  have hj := (hwf j c s hsm).1
  rcases hshape with rfl | ⟨cr, rfl⟩ <;> simp [Event.isJobEvent, Event.jobOf, hj]

theorem append_split_of_not_mem {β : Type _} :
    ∀ {p : List β} {q l1 l2 : List β} {x : β},
      p ++ q = l1 ++ x :: l2 → x ∉ p → ∃ m, l1 = p ++ m ∧ q = m ++ x :: l2 := by
  intro p
  induction p with
  | nil => intro q l1 l2 x h _; exact ⟨l1, rfl, h⟩
  | cons a p' ih =>
    intro q l1 l2 x h hx
    cases l1 with
    | nil =>
      simp only [List.cons_append, List.nil_append] at h
      obtain ⟨rfl, -⟩ := List.cons.inj h
      exact absurd (List.mem_cons_self a p') hx
    | cons b l1' =>
      simp only [List.cons_append] at h
      obtain ⟨rfl, h'⟩ := List.cons.inj h
      obtain ⟨m, hm1, hm2⟩ := ih h' (fun hm => hx (List.mem_cons_of_mem a hm))
      exact ⟨m, by rw [hm1]; rfl, hm2⟩

theorem jobsTrace_shape {exec : Step → CommandResult} {prep : Job → Context → List Step}
    {ctxs : List Context} {jl : List Job} {tr : List Event}
    (h : JobsTrace exec prep ctxs jl tr) :
    ∃ p q, tr = p ++ q ∧ (∀ e ∈ p, e.isFailResult = false) ∧
      (q = [] ∨ ∃ j ∈ jl, EntryTrace exec prep ctxs j q ∧ ∃ e ∈ q, e.isFailResult = true) := by
  induction h with
  | nil => exact ⟨[], [], rfl, by simp, Or.inl rfl⟩
  | consOk job rest tr trs hub hok _ ih =>
    obtain ⟨p, q, rfl, hp, hq⟩ := ih
    refine ⟨tr ++ p, q, by rw [List.append_assoc], ?_, ?_⟩
    · intro e he
      rcases List.mem_append.mp he with he | he
      · exact hok e he
      · exact hp e he
    · rcases hq with rfl | ⟨j, hj, hq⟩
      · exact Or.inl rfl
      · exact Or.inr ⟨j, List.mem_cons_of_mem job hj, hq⟩
  | consFail job rest tr hub hfail =>
    exact ⟨[], tr, rfl, by simp, Or.inr ⟨job, List.mem_cons_self job rest, hub, hfail⟩⟩

/-- C5 (confirmed).  In every engine run, once a non-success `Result`
appears in the trace, everything after it belongs to the job that
failed: no `Start` (indeed no event at all) is ever emitted for any
other job — in particular no job later in the queue is started — while
the tasks of the failing job itself run to completion: every applicable
context's complete `run_job_on_context` trace for that job appears as a
subsequence of the run's trace ("in-flight work is allowed to
finish").  The run is marked failed in `run()` by the collected
non-success result. -/
theorem c5_fail_fast (exec : Step → CommandResult) (prep : Job → Context → List Step)
    (penv : Context → ProvParams) (jobs : List Job) (contexts : List Context)
    (tr : List Event) (hwf : PrepWf prep)
    (hrun : RunJobsTrace exec prep penv jobs contexts tr) :
    ∀ (l1 l2 : List Event) (e1 : Event), tr = l1 ++ e1 :: l2 → e1.isFailResult = true →
      ∃ j ∈ jobs, e1.jobOf = some j
        ∧ (∀ e2 ∈ l2, e2.jobOf = some j)
        ∧ (∀ c ∈ (if j.once then (engineContexts jobs contexts).take 1
                  else engineContexts jobs contexts),
            ∃ tc, JobCtxTrace exec prep j c tc ∧ tc.Sublist tr) := by
  intro l1 l2 e1 hsplit hfail
  have he1mem : e1 ∈ tr := by rw [hsplit]; simp
  cases hrun with
  | setupFail provTr hm hverr =>
    have := venvEvent_not_failResult (prov_traces_all_venvEvents penv _ hm e1 he1mem)
    rw [hfail] at this
    cases this
  | run provTr jobsTr hm hnoerr hjt =>
    obtain ⟨p, q, hq, hpok, hqshape⟩ := jobsTrace_shape hjt
    have hdecomp : (provTr ++ p) ++ q = l1 ++ e1 :: l2 := by
      rw [← hsplit, hq, List.append_assoc]
    have he1notP : e1 ∉ provTr ++ p := by
      intro hmem
      rcases List.mem_append.mp hmem with hmem | hmem
      · have := venvEvent_not_failResult (prov_traces_all_venvEvents penv _ hm e1 hmem)
        rw [hfail] at this
        cases this
      · have := hpok e1 hmem
        rw [hfail] at this
        cases this
    obtain ⟨m, hm1, hm2⟩ := append_split_of_not_mem hdecomp he1notP
    rcases hqshape with rfl | ⟨j, hj, hentry, -⟩
    · simp at hm2
    · refine ⟨j, hj, ?_, ?_, ?_⟩
      · have he1q : e1 ∈ q := by rw [hm2]; simp
        exact (entryTrace_jobOf hentry hwf e1 he1q).2
      · intro e2 he2
        have he2q : e2 ∈ q := by rw [hm2]; simp [he2]
        exact (entryTrace_jobOf hentry hwf e2 he2q).2
      · have hqsub : q.Sublist (provTr ++ jobsTr) := by
          rw [hq, ← List.append_assoc]
          exact List.sublist_append_right (provTr ++ p) q
        cases hentry with
        | once c0 cs tr0 honce hctx hjct =>
          intro c hc
          rw [if_pos honce, hctx] at hc
          simp only [List.take_succ_cons, List.take_zero, List.mem_singleton] at hc
          subst hc
          exact ⟨q, hjct, hqsub⟩
        | multi trs tr0 honce hf hmq =>
          intro c hc
          rw [if_neg (by rw [honce]; exact Bool.false_ne_true)] at hc
          obtain ⟨i, hci⟩ := List.mem_iff_getElem?.mp hc
          obtain ⟨tc, htci, hjct⟩ := forall₂_getElem?_left hf hci
          exact ⟨tc, hjct, (merge_sublist hmq i tc htci).trans hqsub⟩

/-- C6, amended.  Every engine trace splits into a provisioning phase
(only `VenvCreate`/`VenvReady`/`VenvError` events) followed by a job
phase (only `Start`/`Result` events), so provisioning for all contexts
completes (or fails) before any job step runs on any context; and if
any context reported `VenvError`, the job phase is empty — no job
executes on any context.  The run does not, however, stop immediately
after forwarding the `VenvError`: it first forwards the remaining
provisioning events of the other contexts (see the counterexample). -/
theorem c6_provisioning_amended (exec : Step → CommandResult)
    (prep : Job → Context → List Step) (penv : Context → ProvParams)
    (jobs : List Job) (contexts : List Context) (tr : List Event)
    (hrun : RunJobsTrace exec prep penv jobs contexts tr) :
    ∃ pv jb, tr = pv ++ jb ∧ (∀ e ∈ pv, e.isVenvEvent = true)
      ∧ (∀ e ∈ jb, e.isJobEvent = true)
      ∧ ((∃ e ∈ tr, e.isVenvError = true) → jb = []) := by
  cases hrun with
  | setupFail provTr hm hverr =>
    exact ⟨tr, [], by simp, prov_traces_all_venvEvents penv _ hm, by simp, fun _ => rfl⟩
  | run provTr jobsTr hm hnoerr hjt =>
    refine ⟨provTr, jobsTr, rfl, prov_traces_all_venvEvents penv _ hm, ?_, ?_⟩
    · intro e he
      obtain ⟨j, _, c, s, _, _, hshape⟩ := jobsTrace_events hjt e he
      rcases hshape with rfl | ⟨cr, rfl⟩ <;> rfl
    · rintro ⟨e, he, herr⟩
      rcases List.mem_append.mp he with he | he
      · rw [hnoerr e he] at herr
        cases herr
      · obtain ⟨j, _, c, s, _, _, hshape⟩ := jobsTrace_events hjt e he
        rcases hshape with rfl | ⟨cr, rfl⟩ <;> cases herr

/-- Demo material shared by the engine counterexamples and witnesses. -/
def okCR : CommandResult := ⟨0, "", ""⟩

def failCR : CommandResult := ⟨1, "", ""⟩

def ctxC1 : Context := ⟨v39, none, "/v1", Builder.pip, false⟩

def ctxC2 : Context := ⟨v310, none, "/v2", Builder.pip, false⟩

/-- Every step succeeds. -/
def execOk : Step → CommandResult := fun _ => okCR

/-- One step per job, tagged with the job and context (a well-formed
stand-in for `prepare_job` whose rendering is the job name itself). -/
def prepSimple : Job → Context → List Step := fun j c => [⟨[j.name], j, c⟩]

theorem prepSimple_wf : PrepWf prepSimple := by
  intro j c s hs
  rw [List.mem_singleton.mp hs]
  exact ⟨rfl, rfl⟩

/-- Provisioning oracle: the first context is stale and its venv
creation command fails; the second context is fresh (cached). -/
def penvDemo : Context → ProvParams := fun c =>
  if c = ctxC1 then ⟨true, false, failCR, okCR, okCR, okCR⟩
  else ⟨false, false, okCR, okCR, okCR, okCR⟩

/-- The provisioning-failure trace: context 1 announces creation and
errors; context 2 reports ready afterwards. -/
def trC6 : List Event :=
  [Event.venvCreate ctxC1 "creating virtualenv", Event.venvError ctxC1,
    Event.venvReady ctxC2]

theorem demoSetupFailRun :
    RunJobsTrace execOk prepSimple penvDemo [jobB] [ctxC1, ctxC2] trC6 := by
  refine RunJobsTrace.setupFail trC6 ?_ ?_
  · have h := merge_flatten (prov_traces penvDemo (engineContexts [jobB] [ctxC1, ctxC2]))
    have heq : (prov_traces penvDemo (engineContexts [jobB] [ctxC1, ctxC2])).flatten = trC6 := by
      decide
    rw [heq] at h
    exact h
  · exact ⟨Event.venvError ctxC1, by decide, rfl⟩

/-- C6, counterexample.  A valid engine run over two contexts in which
context 1's provisioning fails: the trace is `[VenvCreate c1,
VenvError c1, VenvReady c2]` — a further provisioning event is
forwarded after the `VenvError`, so the run does not stop immediately
after forwarding that event (it only stops after the whole
provisioning phase; no job executes). -/
theorem c6_counterexample :
    RunJobsTrace execOk prepSimple penvDemo [jobB] [ctxC1, ctxC2] trC6
    ∧ trC6[1]? = some (Event.venvError ctxC1)
    ∧ trC6[2]? = some (Event.venvReady ctxC2) :=
  ⟨demoSetupFailRun, by decide, by decide⟩

/-- C6, witness: the amended theorem applied to the concrete
provisioning-failure run. -/
theorem c6_witness :
    ∃ pv jb, trC6 = pv ++ jb ∧ (∀ e ∈ pv, e.isVenvEvent = true)
      ∧ (∀ e ∈ jb, e.isJobEvent = true)
      ∧ ((∃ e ∈ trC6, e.isVenvError = true) → jb = []) :=
  c6_provisioning_amended execOk prepSimple penvDemo [jobB] [ctxC1, ctxC2] trC6
    demoSetupFailRun

theorem success_of_not_error {r : CommandResult} (h : r.error = false) : r.success = true := by
  simp only [CommandResult.error, bne_eq_false_iff_eq] at h
  simp [CommandResult.success, h]

theorem countP_zero_of_all {β : Type _} {p : β → Bool} {l : List β}
    (h : ∀ e ∈ l, p e = false) : l.countP p = 0 := by
  refine List.countP_eq_zero.mpr ?_
  intro a ha hpa
  rw [h a ha] at hpa
  cases hpa

theorem rsoc_countP_start (exec : Step → CommandResult) (c : Context) (st s : Step) :
    (run_step_on_context exec st c).countP (Event.isStartOfStep s)
      = if st == s then 1 else 0 := by
  by_cases h : st = s
  · subst h; simp [run_step_on_context, Event.isStartOfStep, List.countP_cons]
  · simp [run_step_on_context, Event.isStartOfStep, List.countP_cons, h, bne]

theorem rsoc_countP_result (exec : Step → CommandResult) (c : Context) (st s : Step) :
    (run_step_on_context exec st c).countP (Event.isResultOfStep s)
      = if st == s then 1 else 0 := by
  by_cases h : st = s
  · subst h; simp [run_step_on_context, Event.isResultOfStep, List.countP_cons]
  · simp [run_step_on_context, Event.isResultOfStep, List.countP_cons, h, bne]

theorem count_eq_sum_ite (s : Step) : ∀ steps : List Step,
    steps.count s = (steps.map (fun st => if st == s then 1 else 0)).sum := by
  intro steps
  induction steps with
  | nil => rfl
  | cons st rest ih =>
    by_cases h : st = s
    · subst h; simp [List.count_cons, ih, Nat.add_comm]
    · simp [List.count_cons, ih, h, bne]

theorem runStepsSeq_countP_start_le (exec : Step → CommandResult) (c : Context) (s : Step) :
    ∀ steps : List Step,
      (runStepsSeq exec c steps).countP (Event.isStartOfStep s) ≤ steps.count s := by
  intro steps
  induction steps with
  | nil => simp [runStepsSeq]
  | cons st rest ih =>
    rw [runStepsSeq]
    by_cases hsu : (exec st).success
    · rw [if_pos hsu]
      by_cases h : st = s
      · subst h
        simp only [List.countP_cons, Event.isStartOfStep, List.count_cons]
        simp [ih, Nat.add_le_add_iff_right]
      · simp only [List.countP_cons, Event.isStartOfStep, List.count_cons]
        have h1 : (st == s) = false := by simp [h]
        simp [h1, ih]
    · rw [if_neg hsu]
      by_cases h : st = s
      · subst h
        simp [List.countP_cons, Event.isStartOfStep, List.count_cons]
      · have h1 : (st == s) = false := by simp [h]
        simp [List.countP_cons, Event.isStartOfStep, h1, List.count_cons]

theorem runStepsSeq_countP_result_le (exec : Step → CommandResult) (c : Context) (s : Step) :
    ∀ steps : List Step,
      (runStepsSeq exec c steps).countP (Event.isResultOfStep s) ≤ steps.count s := by
  intro steps
  induction steps with
  | nil => simp [runStepsSeq]
  | cons st rest ih =>
    rw [runStepsSeq]
    by_cases hsu : (exec st).success
    · rw [if_pos hsu]
      by_cases h : st = s
      · subst h
        simp only [List.countP_cons, Event.isResultOfStep, List.count_cons]
        simp [ih, Nat.add_le_add_iff_right]
      · simp only [List.countP_cons, Event.isResultOfStep, List.count_cons]
        have h1 : (st == s) = false := by simp [h]
        simp [h1, ih]
    · rw [if_neg hsu]
      by_cases h : st = s
      · subst h
        simp [List.countP_cons, Event.isResultOfStep, List.count_cons]
      · have h1 : (st == s) = false := by simp [h]
        simp [List.countP_cons, Event.isResultOfStep, h1, List.count_cons]

theorem runStepsSeq_countP_start_eq (exec : Step → CommandResult) (c : Context) (s : Step) :
    ∀ steps : List Step,
      (∀ e ∈ runStepsSeq exec c steps, e.isFailResult = false) →
      (runStepsSeq exec c steps).countP (Event.isStartOfStep s) = steps.count s := by
  intro steps
  induction steps with
  | nil => intro _; simp [runStepsSeq]
  | cons st rest ih =>
    intro hall
    have hfail : (Event.result c st (exec st)).isFailResult = false := by
      refine hall _ ?_
      rw [runStepsSeq]
      simp
    have hsu : (exec st).success = true :=
      success_of_not_error (by simpa [Event.isFailResult] using hfail)
    rw [runStepsSeq] at hall ⊢
    rw [if_pos hsu] at hall ⊢
    have hall' : ∀ e ∈ runStepsSeq exec c rest, e.isFailResult = false := by
      intro e he
      exact hall e (by simp [he])
    by_cases h : st = s
    · subst h
      simp [List.countP_cons, Event.isStartOfStep, List.count_cons, ih hall']
    · have h1 : (st == s) = false := by simp [h]
      simp [List.countP_cons, Event.isStartOfStep, h1, List.count_cons, ih hall']

theorem runStepsSeq_countP_result_eq (exec : Step → CommandResult) (c : Context) (s : Step) :
    ∀ steps : List Step,
      (∀ e ∈ runStepsSeq exec c steps, e.isFailResult = false) →
      (runStepsSeq exec c steps).countP (Event.isResultOfStep s) = steps.count s := by
  intro steps
  induction steps with
  | nil => intro _; simp [runStepsSeq]
  | cons st rest ih =>
    intro hall
    have hfail : (Event.result c st (exec st)).isFailResult = false := by
      refine hall _ ?_
      rw [runStepsSeq]
      simp
    have hsu : (exec st).success = true :=
      success_of_not_error (by simpa [Event.isFailResult] using hfail)
    rw [runStepsSeq] at hall ⊢
    rw [if_pos hsu] at hall ⊢
    have hall' : ∀ e ∈ runStepsSeq exec c rest, e.isFailResult = false := by
      intro e he
      exact hall e (by simp [he])
    by_cases h : st = s
    · subst h
      simp [List.countP_cons, Event.isResultOfStep, List.count_cons, ih hall']
    · have h1 : (st == s) = false := by simp [h]
      simp [List.countP_cons, Event.isResultOfStep, h1, List.count_cons, ih hall']

theorem merge_steps_countP_start (exec : Step → CommandResult) (c : Context) (s : Step)
    {steps : List Step} {tr : List Event}
    (hm : Merge (steps.map (fun st => run_step_on_context exec st c)) tr) :
    tr.countP (Event.isStartOfStep s) = steps.count s := by
  rw [merge_countP (Event.isStartOfStep s) hm, List.map_map, count_eq_sum_ite]
  congr 1
  refine List.map_congr_left ?_
  intro st _
  exact rsoc_countP_start exec c st s

theorem merge_steps_countP_result (exec : Step → CommandResult) (c : Context) (s : Step)
    {steps : List Step} {tr : List Event}
    (hm : Merge (steps.map (fun st => run_step_on_context exec st c)) tr) :
    tr.countP (Event.isResultOfStep s) = steps.count s := by
  rw [merge_countP (Event.isResultOfStep s) hm, List.map_map, count_eq_sum_ite]
  congr 1
  refine List.map_congr_left ?_
  intro st _
  exact rsoc_countP_result exec c st s

theorem jobCtxTrace_countP_start_le {exec : Step → CommandResult}
    {prep : Job → Context → List Step} {j : Job} {c : Context} {tr : List Event}
    (h : JobCtxTrace exec prep j c tr) (s : Step) :
    tr.countP (Event.isStartOfStep s) ≤ (prep j c).count s := by
  cases h with
  | seq hpar => exact runStepsSeq_countP_start_le exec c s (prep j c)
  | par tr hpar hm => exact (merge_steps_countP_start exec c s hm).le

theorem jobCtxTrace_countP_result_le {exec : Step → CommandResult}
    {prep : Job → Context → List Step} {j : Job} {c : Context} {tr : List Event}
    (h : JobCtxTrace exec prep j c tr) (s : Step) :
    tr.countP (Event.isResultOfStep s) ≤ (prep j c).count s := by
  cases h with
  | seq hpar => exact runStepsSeq_countP_result_le exec c s (prep j c)
  | par tr hpar hm => exact (merge_steps_countP_result exec c s hm).le

theorem jobCtxTrace_countP_start_eq {exec : Step → CommandResult}
    {prep : Job → Context → List Step} {j : Job} {c : Context} {tr : List Event}
    (h : JobCtxTrace exec prep j c tr) (s : Step)
    (hall : ∀ e ∈ tr, e.isFailResult = false) :
    tr.countP (Event.isStartOfStep s) = (prep j c).count s := by
  cases h with
  | seq hpar => exact runStepsSeq_countP_start_eq exec c s (prep j c) hall
  | par tr hpar hm => exact merge_steps_countP_start exec c s hm

theorem jobCtxTrace_countP_result_eq {exec : Step → CommandResult}
    {prep : Job → Context → List Step} {j : Job} {c : Context} {tr : List Event}
    (h : JobCtxTrace exec prep j c tr) (s : Step)
    (hall : ∀ e ∈ tr, e.isFailResult = false) :
    tr.countP (Event.isResultOfStep s) = (prep j c).count s := by
  cases h with
  | seq hpar => exact runStepsSeq_countP_result_eq exec c s (prep j c) hall
  | par tr hpar hm => exact merge_steps_countP_result exec c s hm

theorem entryTrace_countP_zero {exec : Step → CommandResult}
    {prep : Job → Context → List Step} {ctxs : List Context} {j' : Job} {tr : List Event}
    (h : EntryTrace exec prep ctxs j' tr) (hwf : PrepWf prep) {s : Step}
    (hne : s.job ≠ j') :
    tr.countP (Event.isStartOfStep s) = 0 ∧ tr.countP (Event.isResultOfStep s) = 0 := by
  constructor <;> refine countP_zero_of_all ?_ <;> intro e he
    <;> obtain ⟨c, s', hs', _, hshape⟩ := entryTrace_events h e he
    <;> have hj' : s'.job = j' := (hwf j' c s' hs').1
    <;> have hne' : s' ≠ s := fun hss => hne (hss ▸ hj')
    <;> rcases hshape with rfl | ⟨cr, rfl⟩
    <;> simp [Event.isStartOfStep, Event.isResultOfStep, hne']

theorem venvEvent_not_step {e : Event} (h : e.isVenvEvent = true) (s : Step) :
    Event.isStartOfStep s e = false ∧ Event.isResultOfStep s e = false := by
  cases e <;> simp_all [Event.isVenvEvent, Event.isStartOfStep, Event.isResultOfStep]

theorem entryTrace_once_counts {exec : Step → CommandResult}
    {prep : Job → Context → List Step} {ctxs : List Context} {j : Job} {tr : List Event}
    (h : EntryTrace exec prep ctxs j tr) (honce : j.once = true)
    {c0 : Context} (hc0 : ctxs.head? = some c0) (s : Step) :
    (tr.countP (Event.isStartOfStep s) ≤ (prep j c0).count s
      ∧ tr.countP (Event.isResultOfStep s) ≤ (prep j c0).count s)
    ∧ ((∀ e ∈ tr, e.isFailResult = false) →
        tr.countP (Event.isStartOfStep s) = (prep j c0).count s
        ∧ tr.countP (Event.isResultOfStep s) = (prep j c0).count s) := by
  cases h with
  | once c0' cs tr honce' hctx hjct =>
    have hceq : c0' = c0 := by
      rw [hctx] at hc0
      simpa using hc0
    subst hceq
    exact ⟨⟨jobCtxTrace_countP_start_le hjct s, jobCtxTrace_countP_result_le hjct s⟩,
      fun hall => ⟨jobCtxTrace_countP_start_eq hjct s hall,
        jobCtxTrace_countP_result_eq hjct s hall⟩⟩
  | multi trs tr honce' hf hm =>
    rw [honce'] at honce
    cases honce

theorem jobsTrace_countP_zero {exec : Step → CommandResult}
    {prep : Job → Context → List Step} {ctxs : List Context} {jl : List Job}
    {tr : List Event} (h : JobsTrace exec prep ctxs jl tr) (hwf : PrepWf prep) {s : Step}
    (hne : ∀ j' ∈ jl, s.job ≠ j') :
    tr.countP (Event.isStartOfStep s) = 0 ∧ tr.countP (Event.isResultOfStep s) = 0 := by
  induction h with
  | nil => simp
  | consOk job rest tr trs hub hok hrest ih =>
    have h1 := entryTrace_countP_zero hub hwf (hne job (List.mem_cons_self job rest))
    have h2 := ih (fun j' hj' => hne j' (List.mem_cons_of_mem job hj'))
    rw [List.countP_append, List.countP_append, h1.1, h1.2, h2.1, h2.2]
    exact ⟨rfl, rfl⟩
  | consFail job rest tr hub hfail =>
    exact entryTrace_countP_zero hub hwf (hne job (List.mem_cons_self job rest))

theorem jobsTrace_once_counts_le {exec : Step → CommandResult}
    {prep : Job → Context → List Step} {ctxs : List Context} {jl : List Job}
    {tr : List Event} (h : JobsTrace exec prep ctxs jl tr) (hwf : PrepWf prep)
    {j : Job} (honce : j.once = true) {c0 : Context} (hc0 : ctxs.head? = some c0)
    {s : Step} (hs : s.job = j) :
    jl.count j ≤ 1 →
    tr.countP (Event.isStartOfStep s) ≤ (prep j c0).count s
    ∧ tr.countP (Event.isResultOfStep s) ≤ (prep j c0).count s := by
  induction h with
  | nil => intro _; simp
  | consOk job rest tr trs hub hok hrest ih =>
    intro hcount
    rw [List.countP_append, List.countP_append]
    by_cases hjob : job = j
    · subst hjob
      have hrc : rest.count job = 0 := by
        rw [List.count_cons_self] at hcount
        omega
      have hnotin : job ∉ rest := List.count_eq_zero.mp hrc
      have hz := jobsTrace_countP_zero hrest hwf
        (s := s) (fun j' hj' hjeq => hnotin (by rw [hs] at hjeq; rw [← hjeq] at hj'; exact hj'))
      have hle := (entryTrace_once_counts hub honce hc0 s).1
      rw [hz.1, hz.2]
      exact ⟨by simpa using hle.1, by simpa using hle.2⟩
    · have hz := entryTrace_countP_zero hub hwf (s := s) (fun hjeq => hjob (by rw [← hs, hjeq]))
      have hcount' : rest.count j ≤ 1 := by
        rw [List.count_cons_of_ne (Ne.symm hjob)] at hcount
        exact hcount
      have hih := ih hcount'
      rw [hz.1, hz.2]
      exact ⟨by simpa using hih.1, by simpa using hih.2⟩
  | consFail job rest tr hub hfail =>
    intro hcount
    by_cases hjob : job = j
    · subst hjob
      exact (entryTrace_once_counts hub honce hc0 s).1
    · have hz := entryTrace_countP_zero hub hwf (s := s) (fun hjeq => hjob (by rw [← hs, hjeq]))
      rw [hz.1, hz.2]
      exact ⟨Nat.zero_le _, Nat.zero_le _⟩

theorem jobsTrace_once_counts_eq {exec : Step → CommandResult}
    {prep : Job → Context → List Step} {ctxs : List Context} {jl : List Job}
    {tr : List Event} (h : JobsTrace exec prep ctxs jl tr) (hwf : PrepWf prep)
    {j : Job} (honce : j.once = true) {c0 : Context} (hc0 : ctxs.head? = some c0)
    {s : Step} (hs : s.job = j) :
    jl.count j = 1 → (∀ e ∈ tr, e.isFailResult = false) →
    tr.countP (Event.isStartOfStep s) = (prep j c0).count s
    ∧ tr.countP (Event.isResultOfStep s) = (prep j c0).count s := by
  induction h with
  | nil =>
    intro hcount _
    simp at hcount
  | consOk job rest tr trs hub hok hrest ih =>
    intro hcount hall
    rw [List.countP_append, List.countP_append]
    have hallTr : ∀ e ∈ tr, e.isFailResult = false := fun e he => hall e (by simp [he])
    have hallTrs : ∀ e ∈ trs, e.isFailResult = false := fun e he => hall e (by simp [he])
    by_cases hjob : job = j
    · subst hjob
      have hrc : rest.count job = 0 := by
        rw [List.count_cons_self] at hcount
        omega
      have hnotin : job ∉ rest := List.count_eq_zero.mp hrc
      have hz := jobsTrace_countP_zero hrest hwf
        (s := s) (fun j' hj' hjeq => hnotin (by rw [hs] at hjeq; rw [← hjeq] at hj'; exact hj'))
      have heq := (entryTrace_once_counts hub honce hc0 s).2 hallTr
      rw [hz.1, hz.2, heq.1, heq.2]
      exact ⟨by simp, by simp⟩
    · have hz := entryTrace_countP_zero hub hwf (s := s) (fun hjeq => hjob (by rw [← hs, hjeq]))
      have hcount' : rest.count j = 1 := by
        rw [List.count_cons_of_ne (Ne.symm hjob)] at hcount
        exact hcount
      have hih := ih hcount' hallTrs
      rw [hz.1, hz.2, hih.1, hih.2]
      exact ⟨by simp, by simp⟩
  | consFail job rest tr hub hfail =>
    intro hcount hall
    obtain ⟨e, he, hef⟩ := hfail
    rw [hall e he] at hef
    cases hef

/-- C3, amended.  In every engine run: (a) every `Start`/`Result` event
of a `once` job occurs against the first context of the run, regardless
of how many contexts are active; (b) counting by step, a `once` job
that appears exactly once in the queue produces at most one `Start` and
at most one `Result` event per step in total across all contexts — and
exactly one `Start`/`Result` pair per step of `prep j c0` (so
`(prep j c0).count s = 1` for each step of a duplicate-free step list)
when provisioning succeeded and every result in the run succeeded.
The claim's "never executed more than once per run" holds only for a
queue containing the job once: `resolve_jobs` can queue it twice (see
the counterexample, where a once job produces two `Start` events). -/
theorem c3_once_jobs_amended (exec : Step → CommandResult) (prep : Job → Context → List Step)
    (penv : Context → ProvParams) (jobs : List Job) (contexts : List Context)
    (tr : List Event) (hwf : PrepWf prep)
    (hrun : RunJobsTrace exec prep penv jobs contexts tr) :
    (∀ (c : Context) (s : Step) (cr : CommandResult), s.job.once = true →
        Event.start c s ∈ tr ∨ Event.result c s cr ∈ tr → contexts.head? = some c)
    ∧ (∀ (j : Job) (s : Step) (c0 : Context), j.once = true → s.job = j →
        contexts.head? = some c0 →
        (jobs.count j ≤ 1 →
          tr.countP (Event.isStartOfStep s) ≤ (prep j c0).count s
          ∧ tr.countP (Event.isResultOfStep s) ≤ (prep j c0).count s)
        ∧ (jobs.count j = 1 → (∀ e ∈ tr, e.isFailResult = false) →
            (∀ e ∈ tr, e.isVenvError = false) →
            tr.countP (Event.isStartOfStep s) = (prep j c0).count s
            ∧ tr.countP (Event.isResultOfStep s) = (prep j c0).count s)) := by
  constructor
  · intro c s cr honce hmem
    cases hrun with
    | setupFail provTr hm hverr =>
      rcases hmem with hmem | hmem
      · have hv := prov_traces_all_venvEvents penv _ hm _ hmem
        simp [Event.isVenvEvent] at hv
      · have hv := prov_traces_all_venvEvents penv _ hm _ hmem
        simp [Event.isVenvEvent] at hv
    | run provTr jobsTr hm hnoerr hjt =>
      have hofjob : ∀ e ∈ jobsTr, (e = Event.start c s ∨ e = Event.result c s cr) →
          contexts.head? = some c := by
        intro e he heq
        obtain ⟨j', hj', c', s', hs', hctx, hshape⟩ := jobsTrace_events hjt e he
        have hjo : s'.job = j' := (hwf j' c' s' hs').1
        rcases heq with rfl | rfl
        · rcases hshape with heq2 | ⟨cr2, heq2⟩
          · obtain ⟨rfl, rfl⟩ := Event.start.inj heq2
            rw [← hjo, honce] at hctx
            rw [if_pos rfl] at hctx
            rw [engineContexts_head] at hctx
            exact hctx
          · injection heq2
        · rcases hshape with heq2 | ⟨cr2, heq2⟩
          · injection heq2
          · obtain ⟨rfl, rfl, rfl⟩ := Event.result.inj heq2
            rw [← hjo, honce] at hctx
            rw [if_pos rfl] at hctx
            rw [engineContexts_head] at hctx
            exact hctx
      rcases hmem with hmem | hmem
      all_goals rcases List.mem_append.mp hmem with hmem | hmem
      · have hv := prov_traces_all_venvEvents penv _ hm _ hmem
        simp [Event.isVenvEvent] at hv
      · exact hofjob _ hmem (Or.inl rfl)
      · have hv := prov_traces_all_venvEvents penv _ hm _ hmem
        simp [Event.isVenvEvent] at hv
      · exact hofjob _ hmem (Or.inr rfl)
  · intro j s c0 honce hsj hc0
    cases hrun with
    | setupFail provTr hm hverr =>
      constructor
      · intro _
        have hz1 : List.countP (Event.isStartOfStep s) tr = 0 :=
          countP_zero_of_all (fun e he =>
            (venvEvent_not_step (prov_traces_all_venvEvents penv _ hm e he) s).1)
        have hz2 : List.countP (Event.isResultOfStep s) tr = 0 :=
          countP_zero_of_all (fun e he =>
            (venvEvent_not_step (prov_traces_all_venvEvents penv _ hm e he) s).2)
        rw [hz1, hz2]
        exact ⟨Nat.zero_le _, Nat.zero_le _⟩
      · intro _ _ hnoverr
        obtain ⟨e, he, hev⟩ := hverr
        rw [hnoverr e he] at hev
        cases hev
    | run provTr jobsTr hm hnoerr hjt =>
      have hc0' : (engineContexts jobs contexts).head? = some c0 := by
        rw [engineContexts_head]
        exact hc0
      have hzp1 : List.countP (Event.isStartOfStep s) provTr = 0 :=
        countP_zero_of_all (fun e he =>
          (venvEvent_not_step (prov_traces_all_venvEvents penv _ hm e he) s).1)
      have hzp2 : List.countP (Event.isResultOfStep s) provTr = 0 :=
        countP_zero_of_all (fun e he =>
          (venvEvent_not_step (prov_traces_all_venvEvents penv _ hm e he) s).2)
      constructor
      · intro hcount
        have hle := jobsTrace_once_counts_le hjt hwf honce hc0' hsj hcount
        rw [List.countP_append, List.countP_append, hzp1, hzp2]
        exact ⟨by simpa using hle.1, by simpa using hle.2⟩
      · intro hcount hall _
        have hallJ : ∀ e ∈ jobsTr, e.isFailResult = false :=
          fun e he => hall e (List.mem_append.mpr (Or.inr he))
        have heq := jobsTrace_once_counts_eq hjt hwf honce hc0' hsj hcount hallJ
        rw [List.countP_append, List.countP_append, hzp1, hzp2, heq.1, heq.2]
        exact ⟨by simp, by simp⟩

/-- All contexts provision from cache in the demo runs. -/
def penvOk : Context → ProvParams := fun _ => ⟨false, false, okCR, okCR, okCR, okCR⟩

def sA : Step := ⟨["a"], jobA, ctxC1⟩

def gA1 : List Event := [Event.start ctxC1 sA, Event.result ctxC1 sA okCR]

def sB1 : Step := ⟨["b"], jobB, ctxC1⟩

def sB2 : Step := ⟨["b"], jobB, ctxC2⟩

def gB1 : List Event := [Event.start ctxC1 sB1, Event.result ctxC1 sB1 okCR]

def gB2 : List Event := [Event.start ctxC2 sB2, Event.result ctxC2 sB2 okCR]

theorem jobCtxSeq (exec : Step → CommandResult) (prep : Job → Context → List Step)
    (j : Job) (c : Context) (tr : List Event) (hpar : j.parallel = false)
    (heq : runStepsSeq exec c (prep j c) = tr) : JobCtxTrace exec prep j c tr :=
  heq ▸ JobCtxTrace.seq hpar

theorem entryTraceMulti2 (exec : Step → CommandResult) (prep : Job → Context → List Step)
    (j : Job) (c1 c2 : Context) (t1 t2 : List Event) (honce : j.once = false)
    (h1 : JobCtxTrace exec prep j c1 t1) (h2 : JobCtxTrace exec prep j c2 t2) :
    EntryTrace exec prep [c1, c2] j (t1 ++ t2) := by
  refine EntryTrace.multi [t1, t2] (t1 ++ t2) honce ?_ ?_
  · exact List.Forall₂.cons h1 (List.Forall₂.cons h2 List.Forall₂.nil)
  · simpa using merge_flatten [t1, t2]

theorem entryA : EntryTrace execOk prepSimple [ctxC1, ctxC2] jobA gA1 := by
  refine EntryTrace.once ctxC1 [ctxC2] gA1 (by decide) rfl ?_
  exact jobCtxSeq execOk prepSimple jobA ctxC1 gA1 (by decide) (by decide)

theorem entryB : EntryTrace execOk prepSimple [ctxC1, ctxC2] jobB (gB1 ++ gB2) :=
  entryTraceMulti2 execOk prepSimple jobB ctxC1 ctxC2 gB1 gB2 (by decide)
    (jobCtxSeq execOk prepSimple jobB ctxC1 gB1 (by decide) (by decide))
    (jobCtxSeq execOk prepSimple jobB ctxC2 gB2 (by decide) (by decide))

/-- The full all-success trace of running the duplicate queue
`[a, b, a]` (with `a` a `once` job) over two cached contexts. -/
def trC3 : List Event :=
  [Event.venvReady ctxC1, Event.venvReady ctxC2]
    ++ (gA1 ++ ((gB1 ++ gB2) ++ (gA1 ++ [])))

theorem demoDupRun :
    RunJobsTrace execOk prepSimple penvOk [jobA, jobB, jobA] [ctxC1, ctxC2] trC3 := by
  have jt3 : JobsTrace execOk prepSimple [ctxC1, ctxC2] [jobA] (gA1 ++ []) :=
    JobsTrace.consOk jobA [] gA1 [] entryA (by decide) JobsTrace.nil
  have jt2 : JobsTrace execOk prepSimple [ctxC1, ctxC2] [jobB, jobA]
      ((gB1 ++ gB2) ++ (gA1 ++ [])) :=
    JobsTrace.consOk jobB [jobA] (gB1 ++ gB2) (gA1 ++ []) entryB (by decide) jt3
  have jt1 : JobsTrace execOk prepSimple [ctxC1, ctxC2] [jobA, jobB, jobA]
      (gA1 ++ ((gB1 ++ gB2) ++ (gA1 ++ []))) :=
    JobsTrace.consOk jobA [jobB, jobA] gA1 ((gB1 ++ gB2) ++ (gA1 ++ [])) entryA
      (by decide) jt2
  have hm := merge_flatten
    (prov_traces penvOk (engineContexts [jobA, jobB, jobA] [ctxC1, ctxC2]))
  have heq : (prov_traces penvOk (engineContexts [jobA, jobB, jobA] [ctxC1, ctxC2])).flatten
      = [Event.venvReady ctxC1, Event.venvReady ctxC2] := by decide
  rw [heq] at hm
  exact RunJobsTrace.run [Event.venvReady ctxC1, Event.venvReady ctxC2]
    (gA1 ++ ((gB1 ++ gB2) ++ (gA1 ++ []))) hm (by decide) jt1

/-- C3, counterexample.  The queue `[a, b, a]` — exactly what
`resolve_jobs` produces for the requested names `["b", "a"]` with
`b.requires = ["a"]` — runs the `once` job `a` twice in one engine run
over two contexts: its single step gets two `Start` events (and two
`Result` events), refuting "it is never executed more than once per
run".  (Both executions do occur against the first context.) -/
theorem c3_counterexample :
    resolveJobs 2 ["b", "a"] cfgBA = Except.ok [jobA, jobB, jobA]
    ∧ jobA.once = true
    ∧ RunJobsTrace execOk prepSimple penvOk [jobA, jobB, jobA] [ctxC1, ctxC2] trC3
    ∧ trC3.countP (Event.isStartOfStep sA) = 2
    ∧ trC3.countP (Event.isResultOfStep sA) = 2 :=
  ⟨rfl, rfl, demoDupRun, by decide, by decide⟩

/-- The all-success trace of running the single `once` job `a` over two
contexts: the engine trims to the first context. -/
def trC3W : List Event :=
  [Event.venvReady ctxC1] ++ (gA1 ++ [])

theorem demoOnceRun :
    RunJobsTrace execOk prepSimple penvOk [jobA] [ctxC1, ctxC2] trC3W := by
  have hentry : EntryTrace execOk prepSimple (engineContexts [jobA] [ctxC1, ctxC2]) jobA gA1 := by
    refine EntryTrace.once ctxC1 [] gA1 (by decide) (by decide) ?_
    exact jobCtxSeq execOk prepSimple jobA ctxC1 gA1 (by decide) (by decide)
  have jt : JobsTrace execOk prepSimple (engineContexts [jobA] [ctxC1, ctxC2]) [jobA]
      (gA1 ++ []) :=
    JobsTrace.consOk jobA [] gA1 [] hentry (by decide) JobsTrace.nil
  have hm := merge_flatten (prov_traces penvOk (engineContexts [jobA] [ctxC1, ctxC2]))
  have heq : (prov_traces penvOk (engineContexts [jobA] [ctxC1, ctxC2])).flatten
      = [Event.venvReady ctxC1] := by decide
  rw [heq] at hm
  exact RunJobsTrace.run [Event.venvReady ctxC1] (gA1 ++ []) hm (by decide) jt

/-- C3, witness: the amended theorem applied to a run of the single
`once` job `a` over two contexts. -/
theorem c3_witness :
    (∀ (c : Context) (s : Step) (cr : CommandResult), s.job.once = true →
        Event.start c s ∈ trC3W ∨ Event.result c s cr ∈ trC3W →
        ([ctxC1, ctxC2] : List Context).head? = some c)
    ∧ (∀ (j : Job) (s : Step) (c0 : Context), j.once = true → s.job = j →
        ([ctxC1, ctxC2] : List Context).head? = some c0 →
        (([jobA] : List Job).count j ≤ 1 →
          trC3W.countP (Event.isStartOfStep s) ≤ (prepSimple j c0).count s
          ∧ trC3W.countP (Event.isResultOfStep s) ≤ (prepSimple j c0).count s)
        ∧ (([jobA] : List Job).count j = 1 → (∀ e ∈ trC3W, e.isFailResult = false) →
            (∀ e ∈ trC3W, e.isVenvError = false) →
            trC3W.countP (Event.isStartOfStep s) = (prepSimple j c0).count s
            ∧ trC3W.countP (Event.isResultOfStep s) = (prepSimple j c0).count s)) :=
  c3_once_jobs_amended execOk prepSimple penvOk [jobA] [ctxC1, ctxC2] trC3W
    prepSimple_wf demoOnceRun

def Event.stepOf : Event → Option Step
  | .start _ s => some s
  | .result _ s _ => some s
  | _ => none

/-- A `Start` event of job `j` emitted against context `c`. -/
def Event.isStartOnCtxOfJob (j : Job) (c : Context) : Event → Bool
  | .start c' s => c' == c && s.job == j
  | _ => false

/-- The steps of job `j` started on context `c`, in emission order. -/
def startedSteps (j : Job) (c : Context) (tr : List Event) : List Step :=
  (tr.filter (Event.isStartOnCtxOfJob j c)).filterMap Event.stepOf

theorem startedSteps_append (j : Job) (c : Context) (t1 t2 : List Event) :
    startedSteps j c (t1 ++ t2) = startedSteps j c t1 ++ startedSteps j c t2 := by
  simp [startedSteps, List.filter_append, List.filterMap_append]

theorem runStepsSeq_startedSteps (exec : Step → CommandResult) (c : Context) (j : Job) :
    ∀ steps : List Step, (∀ s ∈ steps, s.job = j) →
      ∃ k, startedSteps j c (runStepsSeq exec c steps) = steps.take k := by
  intro steps
  induction steps with
  | nil => intro _; exact ⟨0, by simp [startedSteps, runStepsSeq]⟩
  | cons st rest ih =>
    intro hjobs
    have hst : st.job = j := hjobs st (List.mem_cons_self st rest)
    have hp : Event.isStartOnCtxOfJob j c (Event.start c st) = true := by
      simp [Event.isStartOnCtxOfJob, hst]
    have hpr : Event.isStartOnCtxOfJob j c (Event.result c st (exec st)) = false := by
      simp [Event.isStartOnCtxOfJob]
    rw [runStepsSeq]
    by_cases hsu : (exec st).success
    · rw [if_pos hsu]
      obtain ⟨k, hk⟩ := ih (fun s hs => hjobs s (List.mem_cons_of_mem st hs))
      refine ⟨k + 1, ?_⟩
      rw [List.take_succ_cons, ← hk]
      simp [startedSteps, List.filter_cons, hp, hpr, Event.stepOf]
    · rw [if_neg hsu]
      refine ⟨1, ?_⟩
      simp [startedSteps, List.filter_cons, hp, hpr, Event.stepOf]

theorem runStepsSeq_fail_last (exec : Step → CommandResult) (c : Context) :
    ∀ (steps : List Step) (A B : List Event) (e : Event),
      runStepsSeq exec c steps = A ++ e :: B → e.isFailResult = true → B = [] := by
  intro steps
  induction steps with
  | nil =>
    intro A B e h _
    rw [runStepsSeq] at h
    exact absurd h.symm (by simp)
  | cons st rest ih =>
    intro A B e h hfail
    rw [runStepsSeq] at h
    by_cases hsu : (exec st).success
    · rw [if_pos hsu] at h
      cases A with
      | nil =>
        simp only [List.nil_append] at h
        obtain ⟨he, -⟩ := List.cons.inj h
        rw [← he] at hfail
        simp [Event.isFailResult] at hfail
      | cons a1 A' =>
        simp only [List.cons_append] at h
        obtain ⟨-, h⟩ := List.cons.inj h
        cases A' with
        | nil =>
          simp only [List.nil_append] at h
          obtain ⟨he, -⟩ := List.cons.inj h
          rw [← he] at hfail
          simp only [Event.isFailResult] at hfail
          simp only [CommandResult.error, bne_iff_ne, ne_eq] at hfail
          simp only [CommandResult.success, beq_iff_eq] at hsu
          exact absurd hsu hfail
        | cons a2 A'' =>
          simp only [List.cons_append] at h
          obtain ⟨-, h⟩ := List.cons.inj h
          exact ih A'' B e h hfail
    · rw [if_neg hsu] at h
      cases A with
      | nil =>
        simp only [List.nil_append] at h
        obtain ⟨he, htail⟩ := List.cons.inj h
        rw [← he] at hfail
        simp [Event.isFailResult] at hfail
      | cons a1 A' =>
        simp only [List.cons_append] at h
        obtain ⟨-, h⟩ := List.cons.inj h
        cases A' with
        | nil =>
          simp only [List.nil_append] at h
          obtain ⟨-, htail⟩ := List.cons.inj h
          exact htail.symm
        | cons a2 A'' =>
          simp only [List.cons_append] at h
          obtain ⟨-, h⟩ := List.cons.inj h
          exact absurd h.symm (by simp)

theorem nodup_getElem?_inj {β : Type _} {l : List β} (h : l.Nodup) {i j : Nat} {a : β}
    (hi : l[i]? = some a) (hj : l[j]? = some a) : i = j :=
  List.getElem?_inj (List.getElem?_eq_some_iff.mp hi).1 h (hi.trans hj.symm)

theorem jobCtxTrace_startOn_false {exec : Step → CommandResult}
    {prep : Job → Context → List Step} {j' : Job} {c' : Context} {tr : List Event}
    (h : JobCtxTrace exec prep j' c' tr) (hwf : PrepWf prep)
    {j : Job} {c : Context} (hne : c' ≠ c ∨ j' ≠ j) :
    ∀ e ∈ tr, Event.isStartOnCtxOfJob j c e = false := by
  intro e he
  obtain ⟨s, hsm, hshape⟩ := jobCtxTrace_events h e he
  have hjob : s.job = j' := (hwf j' c' s hsm).1
  rcases hshape with rfl | ⟨cr, rfl⟩
  · rcases hne with hne | hne
    · simp [Event.isStartOnCtxOfJob, hne]
    · simp [Event.isStartOnCtxOfJob, hjob, hne]
  · rfl

theorem jobCtxTrace_ofJobCtx_false {exec : Step → CommandResult}
    {prep : Job → Context → List Step} {j' : Job} {c' : Context} {tr : List Event}
    (h : JobCtxTrace exec prep j' c' tr) (hwf : PrepWf prep)
    {j : Job} {c : Context} (hne : c' ≠ c ∨ j' ≠ j) :
    ∀ e ∈ tr, Event.isOfJobCtx j c e = false := by
  intro e he
  obtain ⟨s, hsm, hshape⟩ := jobCtxTrace_events h e he
  have hjob : s.job = j' := (hwf j' c' s hsm).1
  rcases hshape with rfl | ⟨cr, rfl⟩
    <;> rcases hne with hne | hne
    <;> simp [Event.isOfJobCtx, hjob, hne]

theorem jobCtxTrace_ofJobCtx_true {exec : Step → CommandResult}
    {prep : Job → Context → List Step} {j : Job} {c : Context} {tr : List Event}
    (h : JobCtxTrace exec prep j c tr) (hwf : PrepWf prep) :
    ∀ e ∈ tr, Event.isOfJobCtx j c e = true := by
  intro e he
  obtain ⟨s, hsm, hshape⟩ := jobCtxTrace_events h e he
  have hjob : s.job = j := (hwf j c s hsm).1
  rcases hshape with rfl | ⟨cr, rfl⟩ <;> simp [Event.isOfJobCtx, hjob]

theorem entryTrace_startedSteps_nil {exec : Step → CommandResult}
    {prep : Job → Context → List Step} {ctxs : List Context} {j' : Job} {tr : List Event}
    (h : EntryTrace exec prep ctxs j' tr) (hwf : PrepWf prep)
    {j : Job} {c : Context} (hne : j ≠ j') :
    startedSteps j c tr = [] := by
  rw [startedSteps, List.filter_eq_nil_iff.mpr, List.filterMap_nil]
  intro e he
  obtain ⟨c'', s, hsm, _, hshape⟩ := entryTrace_events h e he
  have hjob : s.job = j' := (hwf j' c'' s hsm).1
  rcases hshape with rfl | ⟨cr, rfl⟩
  · simp [Event.isStartOnCtxOfJob, hjob, Ne.symm hne]
  · simp [Event.isStartOnCtxOfJob]

theorem entryTrace_startedSteps {exec : Step → CommandResult}
    {prep : Job → Context → List Step} {ctxs : List Context} {j : Job} {tr : List Event}
    (h : EntryTrace exec prep ctxs j tr) (hwf : PrepWf prep)
    (hnodup : ctxs.Nodup) (hpar : j.parallel = false) (c : Context) :
    ∃ k, startedSteps j c tr = (prep j c).take k := by
  have hjobs : ∀ c', ∀ s ∈ prep j c', s.job = j := fun c' s hs => (hwf j c' s hs).1
  cases h with
  | once c0 cs tr honce hctx hjct =>
    by_cases hc : c0 = c
    · subst hc
      cases hjct with
      | seq hp => exact runStepsSeq_startedSteps exec c0 j (prep j c0) (hjobs c0)
      | par tr hp hm => rw [hp] at hpar; cases hpar
    · refine ⟨0, ?_⟩
      rw [List.take_zero, startedSteps, List.filter_eq_nil_iff.mpr, List.filterMap_nil]
      exact fun e he => by
        rw [jobCtxTrace_startOn_false hjct hwf (Or.inl hc) e he]
        simp
  | multi trs tr honce hf hm =>
    by_cases hc : c ∈ ctxs
    · obtain ⟨i, hci⟩ := List.mem_iff_getElem?.mp hc
      obtain ⟨tc, htci, hjct⟩ := forall₂_getElem?_left hf hci
      have hfe : tr.filter (Event.isStartOnCtxOfJob j c)
          = tc.filter (Event.isStartOnCtxOfJob j c) := by
        refine merge_filter_eq _ hm i tc htci ?_
        intro jdx lj hji hgj e he
        obtain ⟨cj, hcj, hjctj⟩ := forall₂_getElem?_right hf hgj
        have hcne : cj ≠ c := by
          intro hcc
          exact hji (nodup_getElem?_inj hnodup (hcc ▸ hcj) hci)
        exact jobCtxTrace_startOn_false hjctj hwf (Or.inl hcne) e he
      cases hjct with
      | seq hp =>
        obtain ⟨k, hk⟩ := runStepsSeq_startedSteps exec c j (prep j c) (hjobs c)
        refine ⟨k, ?_⟩
        rw [startedSteps, hfe]
        exact hk
      | par tc hp hmp => rw [hp] at hpar; cases hpar
    · refine ⟨0, ?_⟩
      rw [List.take_zero, startedSteps, List.filter_eq_nil_iff.mpr, List.filterMap_nil]
      intro e he
      obtain ⟨l, hl, hel⟩ := (merge_mem hm e).mp he
      obtain ⟨i, hli⟩ := List.mem_iff_getElem?.mp hl
      obtain ⟨cl, hcl, hjcl⟩ := forall₂_getElem?_right hf hli
      have hcne : cl ≠ c := fun hcc => hc (hcc ▸ mem_of_getElem?_eq hcl)
      rw [jobCtxTrace_startOn_false hjcl hwf (Or.inl hcne) e hel]
      simp

theorem jobsTrace_startedSteps_nil {exec : Step → CommandResult}
    {prep : Job → Context → List Step} {ctxs : List Context} {jl : List Job}
    {tr : List Event} (h : JobsTrace exec prep ctxs jl tr) (hwf : PrepWf prep)
    {j : Job} {c : Context} (hne : ∀ j' ∈ jl, j ≠ j') :
    startedSteps j c tr = [] := by
  induction h with
  | nil => rfl
  | consOk job rest tr trs hub hok hrest ih =>
    rw [startedSteps_append,
      entryTrace_startedSteps_nil hub hwf (hne job (List.mem_cons_self job rest)),
      ih (fun j' hj' => hne j' (List.mem_cons_of_mem job hj'))]
    rfl
  | consFail job rest tr hub hfail =>
    exact entryTrace_startedSteps_nil hub hwf (hne job (List.mem_cons_self job rest))

theorem jobsTrace_startedSteps {exec : Step → CommandResult}
    {prep : Job → Context → List Step} {ctxs : List Context} {jl : List Job}
    {tr : List Event} (h : JobsTrace exec prep ctxs jl tr) (hwf : PrepWf prep)
    (hnodup : ctxs.Nodup) {j : Job} (hpar : j.parallel = false) (c : Context) :
    jl.count j ≤ 1 → ∃ k, startedSteps j c tr = (prep j c).take k := by
  induction h with
  | nil => intro _; exact ⟨0, rfl⟩
  | consOk job rest tr trs hub hok hrest ih =>
    intro hcount
    rw [startedSteps_append]
    by_cases hjob : job = j
    · subst hjob
      have hrc : rest.count job = 0 := by
        rw [List.count_cons_self] at hcount
        omega
      have hnotin : job ∉ rest := List.count_eq_zero.mp hrc
      obtain ⟨k, hk⟩ := entryTrace_startedSteps hub hwf hnodup hpar c
      rw [hk, jobsTrace_startedSteps_nil hrest hwf
        (fun j' hj' hjeq => hnotin (by rw [← hjeq] at hj'; exact hj')), List.append_nil]
      exact ⟨k, rfl⟩
    · rw [entryTrace_startedSteps_nil hub hwf (fun hjeq => hjob hjeq.symm), List.nil_append]
      refine ih ?_
      rw [List.count_cons_of_ne (Ne.symm hjob)] at hcount
      exact hcount
  | consFail job rest tr hub hfail =>
    intro hcount
    by_cases hjob : job = j
    · subst hjob
      exact entryTrace_startedSteps hub hwf hnodup hpar c
    · rw [entryTrace_startedSteps_nil hub hwf (fun hjeq => hjob hjeq.symm)]
      exact ⟨0, rfl⟩

theorem venvEvent_not_startOn {e : Event} (h : e.isVenvEvent = true) (j : Job) (c : Context) :
    Event.isStartOnCtxOfJob j c e = false := by
  cases e <;> simp_all [Event.isVenvEvent, Event.isStartOnCtxOfJob]

theorem engineContexts_nodup (jobs : List Job) {contexts : List Context}
    (h : contexts.Nodup) : (engineContexts jobs contexts).Nodup := by
  rw [engineContexts]
  by_cases hall : jobs.all (fun j => j.once)
  · rw [if_pos hall]
    exact h.sublist (List.take_sublist 1 contexts)
  · rw [if_neg hall]
    exact h

theorem entryTrace_no_start_after_fail {exec : Step → CommandResult}
    {prep : Job → Context → List Step} {ctxs : List Context} {jE : Job} {q : List Event}
    (hentry : EntryTrace exec prep ctxs jE q) (hwf : PrepWf prep)
    (hnodup : ctxs.Nodup) (hpar : jE.parallel = false)
    {m l2 : List Event} {c : Context} {s1 : Step} {cr : CommandResult}
    (hm2 : q = m ++ Event.result c s1 cr :: l2)
    (herr : cr.error = true) (hs1 : s1.job = jE)
    {s2 : Step} (hs2 : s2.job = jE) : Event.start c s2 ∉ l2 := by
  intro hstart
  have hfail : (Event.result c s1 cr).isFailResult = true := by
    simp [Event.isFailResult, herr]
  have he1q : Event.result c s1 cr ∈ q := by rw [hm2]; simp
  cases hentry with
  | once c0 cs q0 honce hctx hjct =>
    obtain ⟨s3, hs3m, hshape3⟩ := jobCtxTrace_events hjct _ he1q
    rcases hshape3 with heq3 | ⟨cr3, heq3⟩
    · injection heq3
    · have hcc : c = c0 := (Event.result.inj heq3).1
      subst hcc
      cases hjct with
      | seq hp =>
        have hl2 := runStepsSeq_fail_last exec c (prep jE c) m l2
          (Event.result c s1 cr) hm2 hfail
        rw [hl2] at hstart
        cases hstart
      | par q1 hp hmp =>
        rw [hp] at hpar
        cases hpar
  | multi trs q0 honce hf hmq =>
    obtain ⟨LM, hLM, he1LM⟩ := (merge_mem hmq _).mp he1q
    obtain ⟨i, hLMi⟩ := List.mem_iff_getElem?.mp hLM
    obtain ⟨ci, hci, hjci⟩ := forall₂_getElem?_right hf hLMi
    obtain ⟨s3, hs3m, hshape3⟩ := jobCtxTrace_events hjci _ he1LM
    rcases hshape3 with heq3 | ⟨cr3, heq3⟩
    · injection heq3
    · have hcc : c = ci := (Event.result.inj heq3).1
      subst hcc
      have hfilter : q.filter (Event.isOfJobCtx jE c) = LM.filter (Event.isOfJobCtx jE c) := by
        refine merge_filter_eq _ hmq i LM hLMi ?_
        intro jdx lj hji hgj e he
        obtain ⟨cj, hcj, hjcj⟩ := forall₂_getElem?_right hf hgj
        have hcne : cj ≠ c := fun hcc2 => hji (nodup_getElem?_inj hnodup (hcc2 ▸ hcj) hci)
        exact jobCtxTrace_ofJobCtx_false hjcj hwf (Or.inl hcne) e he
      have hLMfull : LM.filter (Event.isOfJobCtx jE c) = LM :=
        List.filter_eq_self.mpr (jobCtxTrace_ofJobCtx_true hjci hwf)
      have hp1 : Event.isOfJobCtx jE c (Event.result c s1 cr) = true := by
        simp [Event.isOfJobCtx, hs1]
      have hLMeq : LM = m.filter (Event.isOfJobCtx jE c)
          ++ Event.result c s1 cr :: l2.filter (Event.isOfJobCtx jE c) := by
        rw [← hLMfull, ← hfilter, hm2, List.filter_append, List.filter_cons_of_pos hp1]
      cases hjci with
      | seq hp =>
        have hl2 := runStepsSeq_fail_last exec c (prep jE c)
          (m.filter (Event.isOfJobCtx jE c))
          (l2.filter (Event.isOfJobCtx jE c))
          (Event.result c s1 cr) hLMeq hfail
        have hstart' : Event.start c s2 ∈ l2.filter (Event.isOfJobCtx jE c) :=
          List.mem_filter.mpr ⟨hstart, by simp [Event.isOfJobCtx, hs2]⟩
        rw [hl2] at hstart'
        cases hstart'
      | par q1 hp hmp =>
        rw [hp] at hpar
        cases hpar

/-- C4 (confirmed).  For a job with `parallel = false`, in every engine
run over duplicate-free contexts: (i) the steps of the job started on
any given context form a prefix of the declared step list — they are
started strictly in declared order (for a queue containing the job at
most once); (ii) once one of the job's steps yields a non-success
`Result` on a context, no `Start` event for any step of that job is
ever emitted later on that same context (the remaining declared steps
are skipped), while other contexts' tasks for the job continue
independently (their complete traces still appear in the run trace,
see the in-flight clause proved for C5 on the same engine model). -/
theorem c4_sequential_steps (exec : Step → CommandResult) (prep : Job → Context → List Step)
    (penv : Context → ProvParams) (jobs : List Job) (contexts : List Context)
    (tr : List Event) (hwf : PrepWf prep)
    (hrun : RunJobsTrace exec prep penv jobs contexts tr)
    (j : Job) (c : Context) (hpar : j.parallel = false)
    (hnodup : contexts.Nodup) :
    (jobs.count j ≤ 1 → ∃ k, startedSteps j c tr = (prep j c).take k)
    ∧ (∀ (l1 l2 : List Event) (s1 : Step) (cr : CommandResult),
        tr = l1 ++ Event.result c s1 cr :: l2 → cr.error = true → s1.job = j →
        ∀ s2 : Step, s2.job = j → Event.start c s2 ∉ l2) := by
  have hnodup' := engineContexts_nodup jobs hnodup
  constructor
  · intro hcount
    cases hrun with
    | setupFail provTr hm hverr =>
      refine ⟨0, ?_⟩
      rw [List.take_zero, startedSteps, List.filter_eq_nil_iff.mpr, List.filterMap_nil]
      exact fun e he => by
        simp [venvEvent_not_startOn (prov_traces_all_venvEvents penv _ hm e he) j c]
    | run provTr jobsTr hm hnoerr hjt =>
      obtain ⟨k, hk⟩ := jobsTrace_startedSteps hjt hwf hnodup' hpar c hcount
      have hpnil : startedSteps j c provTr = [] := by
        rw [startedSteps, List.filter_eq_nil_iff.mpr, List.filterMap_nil]
        exact fun e he => by
          simp [venvEvent_not_startOn (prov_traces_all_venvEvents penv _ hm e he) j c]
      refine ⟨k, ?_⟩
      rw [startedSteps_append, hpnil, List.nil_append]
      exact hk
  · intro l1 l2 s1 cr hsplit herr hs1 s2 hs2 hstart
    have hfail : (Event.result c s1 cr).isFailResult = true := by
      simp [Event.isFailResult, herr]
    have he1mem : Event.result c s1 cr ∈ tr := by rw [hsplit]; simp
    cases hrun with
    | setupFail provTr hm hverr =>
      have := venvEvent_not_failResult (prov_traces_all_venvEvents penv _ hm _ he1mem)
      rw [hfail] at this
      cases this
    | run provTr jobsTr hm hnoerr hjt =>
      obtain ⟨p, q, hq, hpok, hqshape⟩ := jobsTrace_shape hjt
      have hdecomp : (provTr ++ p) ++ q = l1 ++ Event.result c s1 cr :: l2 := by
        rw [← hsplit, hq, List.append_assoc]
      have he1notP : Event.result c s1 cr ∉ provTr ++ p := by
        intro hmem
        rcases List.mem_append.mp hmem with hmem | hmem
        · have := venvEvent_not_failResult (prov_traces_all_venvEvents penv _ hm _ hmem)
          rw [hfail] at this
          cases this
        · have := hpok _ hmem
          rw [hfail] at this
          cases this
      obtain ⟨m, hm1, hm2⟩ := append_split_of_not_mem hdecomp he1notP
      rcases hqshape with rfl | ⟨jE, hjE, hentry, -⟩
      · simp at hm2
      · have he1q : Event.result c s1 cr ∈ q := by rw [hm2]; simp
        obtain ⟨c'', s', hs'm, hcond, hshape⟩ := entryTrace_events hentry _ he1q
        rcases hshape with heq2 | ⟨cr2, heq2⟩
        · injection heq2
        · have hseq : s1 = s' := (Event.result.inj heq2).2.1
          have hjEj : jE = j := by
            rw [← hs1, hseq]
            exact ((hwf jE c'' s' hs'm).1).symm
          subst hjEj
          exact entryTrace_no_start_after_fail hentry hwf hnodup' hpar hm2 herr hs1 hs2
            hstart

/-- Step oracle for the fail-fast demos: every step of job `b` fails,
everything else succeeds. -/
def execFailB : Step → CommandResult := fun s => if s.job = jobB then failCR else okCR

def gB1f : List Event := [Event.start ctxC1 sB1, Event.result ctxC1 sB1 failCR]

def gB2f : List Event := [Event.start ctxC2 sB2, Event.result ctxC2 sB2 failCR]

/-- Trace of the queue `[b, a]` over two cached contexts where `b`
fails on both contexts: job `a` never starts. -/
def trC5 : List Event :=
  [Event.venvReady ctxC1, Event.venvReady ctxC2] ++ (gB1f ++ gB2f)

theorem demoFailRun :
    RunJobsTrace execFailB prepSimple penvOk [jobB, jobA] [ctxC1, ctxC2] trC5 := by
  have hentry : EntryTrace execFailB prepSimple [ctxC1, ctxC2] jobB (gB1f ++ gB2f) :=
    entryTraceMulti2 execFailB prepSimple jobB ctxC1 ctxC2 gB1f gB2f (by decide)
      (jobCtxSeq execFailB prepSimple jobB ctxC1 gB1f (by decide) (by decide))
      (jobCtxSeq execFailB prepSimple jobB ctxC2 gB2f (by decide) (by decide))
  have jt : JobsTrace execFailB prepSimple [ctxC1, ctxC2] [jobB, jobA] (gB1f ++ gB2f) :=
    JobsTrace.consFail jobB [jobA] (gB1f ++ gB2f) hentry
      ⟨Event.result ctxC1 sB1 failCR, by decide, by decide⟩
  have hm := merge_flatten (prov_traces penvOk (engineContexts [jobB, jobA] [ctxC1, ctxC2]))
  have heq : (prov_traces penvOk (engineContexts [jobB, jobA] [ctxC1, ctxC2])).flatten
      = [Event.venvReady ctxC1, Event.venvReady ctxC2] := by decide
  rw [heq] at hm
  exact RunJobsTrace.run [Event.venvReady ctxC1, Event.venvReady ctxC2] (gB1f ++ gB2f)
    hm (by decide) jt

/-- C5, witness: the fail-fast theorem applied to the concrete failing
run of the queue `[b, a]`, split at the final non-success `Result`. -/
theorem c5_witness :
    ∃ j ∈ ([jobB, jobA] : List Job), (Event.result ctxC2 sB2 failCR).jobOf = some j
      ∧ (∀ e2 ∈ ([] : List Event), e2.jobOf = some j)
      ∧ (∀ c ∈ (if j.once then (engineContexts [jobB, jobA] [ctxC1, ctxC2]).take 1
                else engineContexts [jobB, jobA] [ctxC1, ctxC2]),
          ∃ tc, JobCtxTrace execFailB prepSimple j c tc ∧ tc.Sublist trC5) :=
  c5_fail_fast execFailB prepSimple penvOk [jobB, jobA] [ctxC1, ctxC2] trC5
    prepSimple_wf demoFailRun
    [Event.venvReady ctxC1, Event.venvReady ctxC2, Event.start ctxC1 sB1,
      Event.result ctxC1 sB1 failCR, Event.start ctxC2 sB2]
    [] (Event.result ctxC2 sB2 failCR) (by decide) (by decide)

/-- C4, witness: the sequential-steps theorem applied to job `b` on
context 1 in the concrete failing run. -/
theorem c4_witness :
    (([jobB, jobA] : List Job).count jobB ≤ 1 →
      ∃ k, startedSteps jobB ctxC1 trC5 = (prepSimple jobB ctxC1).take k)
    ∧ (∀ (l1 l2 : List Event) (s1 : Step) (cr : CommandResult),
        trC5 = l1 ++ Event.result ctxC1 s1 cr :: l2 → cr.error = true → s1.job = jobB →
        ∀ s2 : Step, s2.job = jobB → Event.start ctxC1 s2 ∉ l2) :=
  c4_sequential_steps execFailB prepSimple penvOk [jobB, jobA] [ctxC1, ctxC2] trC5
    prepSimple_wf demoFailRun jobB ctxC1 (by decide) (by decide)

/-! ## `thx.runner.run_command` (claim C8)

`os.environ` is modelled as an association list with distinct keys
untouched by the embedding; `asyncio.create_subprocess_exec` is an
oracle from argv and environment to a `CommandResult` (its two `PIPE`
handles deliver stdout and stderr as the separate fields of the
result).  `venv_bin_path` switches on `platform.system() == "Windows"`
(the `isWindows` flag) and `os.pathsep` does likewise. -/

abbrev EnvMap : Type := List (String × String)

def getVar (env : EnvMap) (k : String) : Option String :=
  (List.find? (fun p => p.1 == k) env).map Prod.snd

/-- Python dict assignment for a key already present: the binding is
updated in place. -/
def setVar (env : EnvMap) (k v : String) : EnvMap :=
  List.map (fun p => if p.1 == k then (k, v) else p) env

/-- `thx.runner.venv_bin_path`: `venv / "Scripts"` on Windows, else
`venv / "bin"`. -/
def venv_bin_path (isWindows : Bool) (context : Context) : String :=
  if isWindows then context.venv ++ "/Scripts" else context.venv ++ "/bin"

/-- `os.pathsep`. -/
def pathSep (isWindows : Bool) : String :=
  if isWindows then ";" else ":"

/-- The `new_env` computation of `thx.runner.run_command`: `None`
without a context; with one, a copy of `os.environ` whose `PATH` is
prepended with the venv binary directory — reading `new_env["PATH"]`
raises `KeyError` (`Except.error`) if the inherited environment has no
`PATH`.  No other variable is written. -/
def commandEnv (isWindows : Bool) (environ : EnvMap) :
    Option Context → Except Unit (Option EnvMap)
  | none => Except.ok none
  | some context =>
    match getVar environ "PATH" with
    | none => Except.error ()
    | some p =>
      Except.ok (some (setVar environ "PATH"
        (venv_bin_path isWindows context ++ pathSep isWindows ++ p)))

/-- `thx.runner.run_command`: build `new_env`, spawn the subprocess
with both output streams piped, and wrap its exit code and decoded
streams in a `CommandResult` — no exception on a non-zero exit. -/
def run_command (isWindows : Bool) (spawn : List String → Option EnvMap → CommandResult)
    (environ : EnvMap) (command : List String) (context : Option Context) :
    Except Unit CommandResult :=
  (commandEnv isWindows environ context).map (fun e => spawn command e)

theorem getVar_setVar_self (k v : String) : ∀ env : EnvMap,
    (getVar env k).isSome = true → getVar (setVar env k v) k = some v := by
  intro env
  induction env with
  | nil => intro h; cases h
  | cons p rest ih =>
    intro h
    simp only [setVar, List.map_cons]
    by_cases hp : p.1 == k
    · rw [if_pos hp, getVar]
      simp [List.find?_cons]
    · have hpf : (p.1 == k) = false := by simpa using hp
      rw [getVar] at h
      simp only [List.find?_cons, hpf] at h
      rw [if_neg hp, getVar]
      simp only [List.find?_cons, hpf]
      exact ih h

theorem getVar_setVar_other (k k' v : String) (hk : k' ≠ k) : ∀ env : EnvMap,
    getVar (setVar env k v) k' = getVar env k' := by
  intro env
  induction env with
  | nil => rfl
  | cons p rest ih =>
    simp only [setVar, List.map_cons]
    by_cases hp : p.1 == k
    · have hpk : p.1 = k := by simpa using hp
      have h1 : (k == k') = false := by simpa using Ne.symm hk
      have h2 : (p.1 == k') = false := by rw [hpk]; exact h1
      rw [if_pos hp, getVar, getVar]
      simp only [List.find?_cons, h1, h2]
      exact ih
    · rw [if_neg hp, getVar, getVar]
      by_cases hp' : p.1 == k'
      · simp only [List.find?_cons, hp']
      · have hpf : (p.1 == k') = false := by simpa using hp'
        simp only [List.find?_cons, hpf]
        exact ih

theorem mem_setVar {env : EnvMap} {k v k' v' : String}
    (h : (k', v') ∈ setVar env k v) : k' = k ∨ (k', v') ∈ env := by
  obtain ⟨p, hp, hpe⟩ := List.mem_map.mp h
  by_cases hk : p.1 == k
  · rw [if_pos hk] at hpe
    exact Or.inl (congrArg Prod.fst hpe.symm)
  · rw [if_neg hk] at hpe
    exact Or.inr (hpe ▸ hp)

/-- C8, amended.  With a context, `run_command` spawns the subprocess
with stdout and stderr piped separately, in an environment whose
`PATH` is the context's venv binary directory prepended (with
`os.pathsep`) to the inherited `PATH`, every other variable unchanged
and **no variable added**: contrary to the claim, no environment-marker
variable identifying the active environment is set.  It never raises on
a non-zero exit code (the spawn's exit code is carried in the returned
`CommandResult`, whose `success` is true iff that code is 0); the only
failure is a `KeyError` when the inherited environment lacks `PATH`. -/
theorem c8_run_command_amended (isWindows : Bool)
    (spawn : List String → Option EnvMap → CommandResult)
    (environ : EnvMap) (command : List String) (context : Context) (p : String)
    (hpath : getVar environ "PATH" = some p) :
    ∃ newEnv : EnvMap,
      commandEnv isWindows environ (some context) = Except.ok (some newEnv)
      ∧ getVar newEnv "PATH"
          = some (venv_bin_path isWindows context ++ pathSep isWindows ++ p)
      ∧ (∀ k, k ≠ "PATH" → getVar newEnv k = getVar environ k)
      ∧ (∀ k v, (k, v) ∈ newEnv → k = "PATH" ∨ (k, v) ∈ environ)
      ∧ run_command isWindows spawn environ command (some context)
          = Except.ok (spawn command (some newEnv))
      ∧ ((spawn command (some newEnv)).success = true
          ↔ (spawn command (some newEnv)).exit_code = 0) := by
  refine ⟨setVar environ "PATH" (venv_bin_path isWindows context ++ pathSep isWindows ++ p),
    ?_, ?_, ?_, ?_, ?_, ?_⟩
  · rw [commandEnv, hpath]
  · exact getVar_setVar_self "PATH" _ environ (by rw [hpath]; rfl)
  · intro k hk
    exact getVar_setVar_other "PATH" k _ hk environ
  · intro k v hm
    exact mem_setVar hm
  · rw [run_command, commandEnv, hpath]
    rfl
  · rw [CommandResult.success, beq_iff_eq]

def demoEnviron : EnvMap := [("PATH", "/usr/bin"), ("HOME", "/root")]

/-- C8, counterexample.  The exact environment built for a spawn under
context 1 on a POSIX platform: `PATH` gets the venv `bin` directory
prepended, `HOME` is untouched, and the environment contains no other
variable — in particular no environment-marker variable identifying
the active environment, refuting that part of the claim. -/
theorem c8_counterexample :
    commandEnv false demoEnviron (some ctxC1)
      = Except.ok (some [("PATH", "/v1/bin:/usr/bin"), ("HOME", "/root")])
    ∧ ∀ kv ∈ [("PATH", "/v1/bin:/usr/bin"), ("HOME", "/root")],
        kv.1 = "PATH" ∨ kv ∈ demoEnviron :=
  ⟨rfl, by decide⟩

/-- C8, witness: the amended theorem at a concrete environment, spawn
oracle and command. -/
theorem c8_witness :
    getVar demoEnviron "PATH" = some "/usr/bin"
    ∧ ∃ newEnv : EnvMap,
      commandEnv false demoEnviron (some ctxC1) = Except.ok (some newEnv)
      ∧ getVar newEnv "PATH" = some (venv_bin_path false ctxC1 ++ pathSep false ++ "/usr/bin")
      ∧ (∀ k, k ≠ "PATH" → getVar newEnv k = getVar demoEnviron k)
      ∧ (∀ k v, (k, v) ∈ newEnv → k = "PATH" ∨ (k, v) ∈ demoEnviron)
      ∧ run_command false (fun _ _ => ⟨7, "out", "err"⟩) demoEnviron ["tool"] (some ctxC1)
          = Except.ok ((fun (_ : List String) (_ : Option EnvMap) =>
              (⟨7, "out", "err"⟩ : CommandResult)) ["tool"] (some newEnv))
      ∧ (((fun (_ : List String) (_ : Option EnvMap) =>
              (⟨7, "out", "err"⟩ : CommandResult)) ["tool"] (some newEnv)).success = true
          ↔ ((fun (_ : List String) (_ : Option EnvMap) =>
              (⟨7, "out", "err"⟩ : CommandResult)) ["tool"] (some newEnv)).exit_code = 0) :=
  ⟨by decide, c8_run_command_amended false (fun _ _ => ⟨7, "out", "err"⟩) demoEnviron
    ["tool"] ctxC1 "/usr/bin" (by decide)⟩

/-! ## `thx.runner.render_command` (claim C9)

`str.format` is embedded for the keyword-field templates thx uses
(`\x7bname\x7d` fields, `\x7b\x7b`/`\x7d\x7d` escapes); any failure
Python would raise — unknown field name, positional field with no
positional arguments, stray braces — is `none`.  `shlex.split` is
embedded in POSIX mode for whitespace and quote handling (backslash
escapes, unused by thx's templates, are not modelled).  `shutil.which`
is the `shwhich` oracle, taking the probed name and the `path`
keyword argument (`none` = inherited `PATH`). -/

def openB : Char := Char.ofNat 123

def closeB : Char := Char.ofNat 125

def squote : Char := Char.ofNat 39

def dquote : Char := Char.ofNat 34

/-- Parse a format field name up to the closing brace. -/
def takeIdent : List Char → Option (List Char × List Char)
  | [] => none
  | c :: rest =>
    if c = closeB then some ([], rest)
    else if c = openB then none
    else
      match takeIdent rest with
      | none => none
      | some (nm, r) => some (c :: nm, r)

/-- `str.format` with keyword arguments `vals` (first binding wins,
as in a Python dict built from unique keys).  The empty field name
(`\x7b\x7d`) is a positional field, an error under keyword-only
arguments, and no `vals` key is empty — the lookup fails for it. -/
def pyFormat (vals : List (String × String)) : Nat → List Char → Option (List Char)
  | 0, _ => none
  | _ + 1, [] => some []
  | n + 1, c :: rest =>
    if c = openB then
      match rest with
      | [] => none
      | c2 :: rest2 =>
        if c2 = openB then (pyFormat vals n rest2).map (fun t => openB :: t)
        else
          match takeIdent (c2 :: rest2) with
          | none => none
          | some (nm, r) =>
            match getVar vals (String.mk nm) with
            | none => none
            | some v => (pyFormat vals n r).map (fun t => v.toList ++ t)
    else if c = closeB then
      match rest with
      | [] => none
      | c2 :: rest2 =>
        if c2 = closeB then (pyFormat vals n rest2).map (fun t => closeB :: t)
        else none
    else (pyFormat vals n rest).map (fun t => c :: t)

def isWs (c : Char) : Bool := c == ' ' || c == '\t' || c == '\n'

/-- `shlex.split` worker: `quote` is the open quote character if any,
`acc` the token in progress (`none` when between tokens; quotes open a
token even when empty).  An unterminated quote is Python's
`ValueError`. -/
def shlexAux : Nat → Option Char → Option (List Char) → List Char → Option (List (List Char))
  | 0, _, _, _ => none
  | _ + 1, some _, _, [] => none
  | _ + 1, none, acc, [] =>
    some (match acc with | none => [] | some a => [a.reverse])
  | n + 1, some q, acc, c :: rest =>
    if c = q then shlexAux n none (some (acc.getD [])) rest
    else shlexAux n (some q) (some (c :: acc.getD [])) rest
  | n + 1, none, acc, c :: rest =>
    if isWs c then
      match acc with
      | none => shlexAux n none none rest
      | some a => (shlexAux n none none rest).map (fun ts => a.reverse :: ts)
    else if c = squote || c = dquote then shlexAux n (some c) (some (acc.getD [])) rest
    else shlexAux n none (some (c :: acc.getD [])) rest

def shlexSplit (s : String) : Option (List String) :=
  (shlexAux (s.toList.length + 1) none none s.toList).map (List.map String.mk)

/-- `str(Version)` for the modelled fields (`packaging.version`'s
canonical rendering). -/
def versionStr (v : Version) : String :=
  (if v.epoch ≠ 0 then toString v.epoch ++ "!" else "")
    ++ String.intercalate "." (v.release.map toString)
    ++ (match v.pre with | some (l, n) => l ++ toString n | none => "")
    ++ (match v.post with | some n => ".post" ++ toString n | none => "")
    ++ (match v.dev with | some n => ".dev" ++ toString n | none => "")

/-- `thx.runner.which`: probe the context's venv binary directory
first, then the inherited `PATH`; fall back to the bare name. -/
def which (isWindows : Bool) (shwhich : String → Option String → Option String)
    (name : String) (context : Context) : String :=
  match shwhich name (some (venv_bin_path isWindows context)) with
  | some binary => binary
  | none =>
    match shwhich name none with
    | some binary => binary
    | none => name

/-- `thx.runner.render_command`: format the template with
`config.values` plus `python_version` (Python raises `TypeError`
before formatting when `config.values` itself binds `python_version` —
duplicate keyword argument), split the result with `shlex`, and
replace `cmd[0]` by its `which` resolution (an empty split raises
`IndexError` at `cmd[0]`).  `none` models every raising path. -/
def render_command (isWindows : Bool) (shwhich : String → Option String → Option String)
    (run : String) (context : Context) (values : List (String × String)) :
    Option (List String) :=
  if (getVar values "python_version").isSome then none
  else
    match pyFormat (values ++ [("python_version", versionStr context.python_version)])
        (run.toList.length + 1) run.toList with
    | none => none
    | some out =>
      match shlexSplit (String.mk out) with
      | none => none
      | some [] => none
      | some (c0 :: rest) => some (which isWindows shwhich c0 context :: rest)

/-- Which-oracle for the demo: nothing in the venv binary directory;
`echo` resolves to `/usr/bin/echo` on the inherited `PATH`. -/
def shwhichDemo : String → Option String → Option String := fun name p =>
  match p with
  | some _ => none
  | none => if name = "echo" then some "/usr/bin/echo" else none

/-- C9, counterexample.  Rendering `"echo \x7bmodule\x7d"` with
`values = \x7b"module": "x"\x7d` under an oracle that resolves `echo`
to `/usr/bin/echo` yields `("/usr/bin/echo", "x")`, not `("echo",
"x")`: the rendered argv is **not** independent of the resolved `PATH`
of `echo`, because `render_command` replaces `cmd[0]` with its `which`
resolution. -/
theorem c9_counterexample :
    render_command false shwhichDemo "echo \x7bmodule\x7d" ctxC1 [("module", "x")]
      = some ["/usr/bin/echo", "x"]
    ∧ (["/usr/bin/echo", "x"] : List String) ≠ ["echo", "x"] :=
  ⟨by decide, by decide⟩

/-- C9, amended.  When `config.values` does not itself bind
`python_version` (otherwise Python raises `TypeError`), template
substitution sees exactly `config.values` plus the context's
`python_version`; a substitution failure (unknown field, stray brace)
is fatal — `render_command` raises instead of returning an argv; and
on success the argv is the `shlex` split of the rendered string with
`cmd[0]` replaced by its `which` resolution — so the head of the argv
depends on the resolved `PATH`, and equals the bare token only when
`which` falls back to the name. -/
theorem c9_render_amended (isWindows : Bool)
    (shwhich : String → Option String → Option String) (run : String)
    (context : Context) (values : List (String × String))
    (hnv : getVar values "python_version" = none) :
    (pyFormat (values ++ [("python_version", versionStr context.python_version)])
        (run.toList.length + 1) run.toList = none →
      render_command isWindows shwhich run context values = none)
    ∧ (∀ (out : List Char) (c0 : String) (rest : List String),
        pyFormat (values ++ [("python_version", versionStr context.python_version)])
            (run.toList.length + 1) run.toList = some out →
        shlexSplit (String.mk out) = some (c0 :: rest) →
        render_command isWindows shwhich run context values
          = some (which isWindows shwhich c0 context :: rest)) := by
  constructor
  · intro hfmt
    rw [render_command, if_neg (by rw [hnv]; simp), hfmt]
  · intro out c0 rest hfmt hsplit
    have h1 : render_command isWindows shwhich run context values
        = match shlexSplit (String.mk out) with
          | none => none
          | some [] => none
          | some (c0 :: rest) => some (which isWindows shwhich c0 context :: rest) := by
      rw [render_command, if_neg (by rw [hnv]; simp), hfmt]
    rw [h1, hsplit]

/-- C9, witness: the amended theorem at the round-trip template of the
claim. -/
theorem c9_witness :
    getVar [("module", "x")] "python_version" = none
    ∧ ((pyFormat ([("module", "x")]
            ++ [("python_version", versionStr ctxC1.python_version)])
          (("echo \x7bmodule\x7d" : String).toList.length + 1)
          ("echo \x7bmodule\x7d" : String).toList = none →
        render_command false shwhichDemo "echo \x7bmodule\x7d" ctxC1 [("module", "x")]
          = none)
      ∧ (∀ (out : List Char) (c0 : String) (rest : List String),
          pyFormat ([("module", "x")]
              ++ [("python_version", versionStr ctxC1.python_version)])
            (("echo \x7bmodule\x7d" : String).toList.length + 1)
            ("echo \x7bmodule\x7d" : String).toList = some out →
          shlexSplit (String.mk out) = some (c0 :: rest) →
          render_command false shwhichDemo "echo \x7bmodule\x7d" ctxC1 [("module", "x")]
            = some (which false shwhichDemo c0 ctxC1 :: rest))) :=
  ⟨rfl, c9_render_amended false shwhichDemo "echo \x7bmodule\x7d" ctxC1
    [("module", "x")] rfl⟩

/-! ## `thx.config.load_config` versions and `thx.context.resolve_contexts` (claim C10)

`packaging.version.Version` ordering is embedded as `_cmpkey`: epoch,
release with trailing zeros stripped (tuple comparison is the
lexicographic list order), then the pre/post/dev keys with
`packaging`'s infinities.  Version equality (used by the `set()` in
`load_config`) is key equality.  `shutil.which` and
`runtime_version` are the `whichB`/`rtv` oracles; `tomli`, the
filesystem and `validate_config` are outside the fragment. -/

abbrev PreKey := WithBot (WithTop (Lex (String × ℕ)))

abbrev VKey := ℕ ×ₗ ((List ℕ) ×ₗ (PreKey ×ₗ ((WithBot ℕ) ×ₗ (WithTop ℕ))))

/-- Trailing-zero stripping of `_cmpkey` on the release tuple. -/
def stripZeros (l : List Nat) : List Nat :=
  (l.reverse.dropWhile (fun n => n == 0)).reverse

/-- The pre-release component of `_cmpkey`: `-∞` for a dev-only
version, `∞` when there is no pre-release, else the pre tuple. -/
def preKey (v : Version) : PreKey :=
  match v.pre, v.post, v.dev with
  | none, none, some _ => ⊥
  | none, _, _ => ((⊤ : WithTop (Lex (String × ℕ))) : PreKey)
  | some (l, n), _, _ =>
    (((toLex (l, n) : Lex (String × ℕ)) : WithTop (Lex (String × ℕ))) : PreKey)

def postKey (v : Version) : WithBot ℕ :=
  match v.post with
  | none => ⊥
  | some n => (n : WithBot ℕ)

def devKey (v : Version) : WithTop ℕ :=
  match v.dev with
  | none => ⊤
  | some n => (n : WithTop ℕ)

/-- `packaging.version._cmpkey` (without the unmodelled local
segment). -/
def vkey (v : Version) : VKey :=
  toLex (v.epoch, toLex (stripZeros v.release, toLex (preKey v,
    toLex (postKey v, devKey v))))

/-- The descending comparison used by `sorted(..., reverse=True)`. -/
def vge (a b : Version) : Prop := vkey b ≤ vkey a

instance : DecidableRel vge := fun a b => inferInstanceAs (Decidable (vkey b ≤ vkey a))

instance : IsTotal Version vge := ⟨fun a b => le_total (vkey b) (vkey a)⟩

instance : IsTrans Version vge := ⟨fun _ _ _ hab hbc => le_trans hbc hab⟩

/-- `set()` of `Version` objects: keep the first object of each
equality key. -/
def dedupKeyAux (seen : List VKey) : List Version → List Version
  | [] => []
  | v :: rest =>
    if vkey v ∈ seen then dedupKeyAux seen rest
    else v :: dedupKeyAux (vkey v :: seen) rest

def dedupKey (l : List Version) : List Version := dedupKeyAux [] l

/-- The `versions` computation of `thx.config.load_config`:
`sorted(set(...), reverse=True)` over the parsed
`tool.thx.python_versions` entries. -/
def loadConfigVersions (raw : List Version) : List Version :=
  List.insertionSort vge (dedupKey raw)

/-- `thx.context.venv_path`: `root / ".thx" / "venv" / str(version)`. -/
def venvPathStr (root : String) (version : Version) : String :=
  root ++ "/.thx/venv/" ++ versionStr version

def vmajor (v : Version) : Nat := v.release.getD 0 0

def vminor (v : Version) : Nat := v.release.getD 1 0

/-- The candidate binary names probed by `find_runtime`. -/
def binaryNames (v : Version) : List String :=
  ["python" ++ toString (vmajor v) ++ "." ++ toString (vminor v),
    "python" ++ toString (vmajor v), "python"]

/-- The probe loop of `thx.context.find_runtime` (the `venv` argument
is `None` at the `resolve_contexts` call site, so the venv branch is
skipped): the first binary that exists, reports a runtime version, and
matches the requested version wins; a binary whose version probe fails
or does not match is skipped. -/
def findRuntimeAux (whichB : String → Option String) (rtv : String → Option Version)
    (version : Version) : List String → Option (String × Version)
  | [] => none
  | b :: rest =>
    match whichB b with
    | none => findRuntimeAux whichB rtv version rest
    | some pathStr =>
      match rtv pathStr with
      | none => findRuntimeAux whichB rtv version rest
      | some bv =>
        if (version_match [bv] version).isEmpty then
          findRuntimeAux whichB rtv version rest
        else some (pathStr, bv)

def find_runtime (whichB : String → Option String) (rtv : String → Option Version)
    (version : Version) : Option (String × Version) :=
  findRuntimeAux whichB rtv version (binaryNames version)

/-- `thx.context.determine_builder`: `auto` picks uv when `uv` is on
`PATH` else pip; an explicit uv without the binary is a
`ConfigError`. -/
def determine_builder (whichB : String → Option String) (cfgBuilder : Builder) :
    Except Unit Builder :=
  match cfgBuilder with
  | Builder.auto =>
    Except.ok (if (whichB "uv").isSome then Builder.uv else Builder.pip)
  | Builder.uv =>
    if (whichB "uv").isSome then Except.ok Builder.uv else Except.error ()
  | Builder.pip => Except.ok Builder.pip

/-- The pip-path context loop of `resolve_contexts` (missing versions
are skipped with a warning). -/
def pipContexts (root : String) (builder : Builder) (whichB : String → Option String)
    (rtv : String → Option Version) (cfgVersions : List Version) : List Context :=
  cfgVersions.filterMap (fun v =>
    (find_runtime whichB rtv v).map (fun pr =>
      (⟨pr.2, some pr.1, venvPathStr root pr.2, builder, false⟩ : Context)))

/-- `thx.context.resolve_contexts`: live single context when requested
or when no versions are configured; with uv, one context per
(optionally `--python`-filtered) config version in config order; with
pip, one context per config version whose runtime `find_runtime`
discovers, carrying the **discovered** runtime version, then the
optional `--python` filter. -/
def resolve_contexts (root : String) (cfgVersions : List Version) (cfgBuilder : Builder)
    (whichB : String → Option String) (rtv : String → Option Version)
    (platformVersion : Version) (sysExecutable : String)
    (optLive : Bool) (optPython : Option Version) : Except Unit (List Context) :=
  match determine_builder whichB cfgBuilder with
  | Except.error e => Except.error e
  | Except.ok builder =>
    if optLive || cfgVersions.isEmpty then
      Except.ok [⟨platformVersion, some sysExecutable,
        venvPathStr root platformVersion, builder, true⟩]
    else if builder = Builder.uv then
      Except.ok ((match optPython with
        | none => cfgVersions
        | some t => version_match cfgVersions t).map
          (fun v => ⟨v, none, venvPathStr root v, builder, false⟩))
    else
      Except.ok (match optPython with
        | none => pipContexts root builder whichB rtv cfgVersions
        | some t =>
          (pipContexts root builder whichB rtv cfgVersions).filter (fun c =>
            c.python_version ∈ version_match
              ((pipContexts root builder whichB rtv cfgVersions).map
                Context.python_version) t))

theorem dedupKeyAux_keys : ∀ (l : List Version) (seen : List VKey),
    (dedupKeyAux seen l).Pairwise (fun a b => vkey a ≠ vkey b)
    ∧ ∀ v ∈ dedupKeyAux seen l, vkey v ∉ seen := by
  intro l
  induction l with
  | nil => intro seen; exact ⟨List.Pairwise.nil, by simp [dedupKeyAux]⟩
  | cons v rest ih =>
    intro seen
    rw [dedupKeyAux]
    by_cases hv : vkey v ∈ seen
    · rw [if_pos hv]
      exact ih seen
    · rw [if_neg hv]
      obtain ⟨hpw, hmem⟩ := ih (vkey v :: seen)
      refine ⟨List.Pairwise.cons ?_ hpw, ?_⟩
      · intro b hb heq
        exact hmem b hb (heq ▸ List.mem_cons_self (vkey v) seen)
      · intro w hw
        rcases List.mem_cons.mp hw with rfl | hw
        · exact hv
        · exact fun hws => hmem w hw (List.mem_cons_of_mem _ hws)

theorem loadConfigVersions_strict (raw : List Version) :
    (loadConfigVersions raw).Pairwise (fun a b => vkey b < vkey a) := by
  have hsorted : (loadConfigVersions raw).Pairwise vge :=
    List.sorted_insertionSort vge (dedupKey raw)
  have hperm : (loadConfigVersions raw).Perm (dedupKey raw) :=
    List.perm_insertionSort vge (dedupKey raw)
  have hkeys : (loadConfigVersions raw).Pairwise (fun a b => vkey a ≠ vkey b) := by
    refine (hperm.pairwise_iff (fun hab => ?_)).mpr (dedupKeyAux_keys raw []).1
    exact fun heq => hab heq.symm
  exact (hsorted.and hkeys).imp (fun h => lt_of_le_of_ne h.1 (Ne.symm h.2))

/-- C10, amended.  `load_config` returns `config.versions` sorted
strictly descending by `packaging`'s comparison key and duplicate-free;
`resolve_contexts` preserves that order in the live path (one context)
and in the **uv** path, where the context list carries the config
versions themselves (optionally filtered by `--python`) in order — so
there the first context, the one a `once` job runs against, has the
newest resolved version.  In the pip path the claim fails: contexts
carry the versions *discovered* by `find_runtime`, which need not be
descending (see the counterexample, where the newest runtime sits in
the second context). -/
theorem c10_load_resolve_amended (raw : List Version) (root : String)
    (whichB : String → Option String) (rtv : String → Option Version)
    (platformVersion : Version) (sysExecutable : String)
    (optPython : Option Version) (ctxs : List Context)
    (hres : resolve_contexts root (loadConfigVersions raw) Builder.uv whichB rtv
        platformVersion sysExecutable false optPython = Except.ok ctxs) :
    (loadConfigVersions raw).Pairwise (fun a b => vkey b < vkey a)
    ∧ (loadConfigVersions raw).Nodup
    ∧ (ctxs.map Context.python_version).Pairwise (fun a b => vkey b < vkey a)
    ∧ ∀ c0 cs, ctxs = c0 :: cs →
        ∀ c ∈ ctxs, vkey c.python_version ≤ vkey c0.python_version := by
  have hstrict := loadConfigVersions_strict raw
  have hnodup : (loadConfigVersions raw).Nodup := by
    refine hstrict.imp ?_
    intro a b h heq
    rw [heq] at h
    exact lt_irrefl _ h
  have hctx : (ctxs.map Context.python_version).Pairwise (fun a b => vkey b < vkey a) := by
    rw [resolve_contexts.eq_def] at hres
    cases huv : whichB "uv" with
    | none =>
      rw [determine_builder, huv] at hres
      cases hres
    | some u =>
      rw [determine_builder, huv] at hres
      simp only [Option.isSome_some, Bool.false_or, reduceIte] at hres
      split at hres
      · obtain rfl := Except.ok.inj hres
        simp
      · obtain rfl := Except.ok.inj hres
        rw [List.map_map]
        have hmapid : ((fun (c : Context) => c.python_version) ∘
            (fun v => (⟨v, none, venvPathStr root v, Builder.uv, false⟩ : Context)))
            = fun v => v := rfl
        rw [hmapid, List.map_id']
        cases optPython with
        | none => exact loadConfigVersions_strict raw
        | some t =>
          exact (loadConfigVersions_strict raw).sublist
            (List.filter_sublist (loadConfigVersions raw))
  refine ⟨hstrict, hnodup, hctx, ?_⟩
  intro c0 cs heq c hc
  subst heq
  rcases List.mem_cons.mp hc with rfl | hc
  · exact le_refl _
  · rw [List.map_cons] at hctx
    exact le_of_lt ((List.pairwise_cons.mp hctx).1 _
      (List.mem_map_of_mem Context.python_version hc))

def v391 : Version := ⟨0, [3, 9, 1], none, none, none⟩

def v395 : Version := ⟨0, [3, 9, 5], none, none, none⟩

/-- `shutil.which` for the pip-path demo: `python3.9` and `python3`
exist, `uv` (and everything else) does not. -/
def whichDemoB : String → Option String := fun b =>
  if b = "python3.9" then some "/usr/bin/python3.9"
  else if b = "python3" then some "/opt/alt/python3"
  else none

/-- `runtime_version` for the demo: the `python3.9` binary is a 3.9.5
runtime, the alternative `python3` is a 3.9.1 runtime. -/
def rtvDemo : String → Option Version := fun p =>
  if p = "/usr/bin/python3.9" then some v395
  else if p = "/opt/alt/python3" then some v391
  else none

/-- C10, counterexample.  With configured versions `3.9` and `3.9.1`,
`load_config` sorts them descending: `[3.9.1, 3.9]`.  But on the pip
path `resolve_contexts` builds contexts from the runtimes
`find_runtime` discovers: the target `3.9.1` only matches the `3.9.1`
runtime behind `python3`, while the target `3.9` takes the newer
`3.9.5` runtime behind `python3.9` — so the context list is
`[3.9.1, 3.9.5]`, **ascending**: the first context (the one a `once`
job runs against) does not carry the newest resolved Python
version. -/
theorem c10_counterexample :
    loadConfigVersions [v39, v391] = [v391, v39]
    ∧ resolve_contexts "/r" [v391, v39] Builder.pip whichDemoB rtvDemo v39
        "/usr/bin/python" false none
      = Except.ok
          [⟨v391, some "/opt/alt/python3", "/r/.thx/venv/3.9.1", Builder.pip, false⟩,
            ⟨v395, some "/usr/bin/python3.9", "/r/.thx/venv/3.9.5", Builder.pip, false⟩]
    ∧ vkey v391 < vkey v395 :=
  ⟨by decide, rfl, by decide⟩

/-- Config versions for the uv-path witness. -/
def uvCtxsDemo : List Context :=
  [⟨v391, none, "/r/.thx/venv/3.9.1", Builder.uv, false⟩,
    ⟨v39, none, "/r/.thx/venv/3.9", Builder.uv, false⟩]

def whichUvDemo : String → Option String := fun b =>
  if b = "uv" then some "/usr/bin/uv" else none

/-- C10, witness: the amended theorem on the uv path at concrete
config versions `[3.9, 3.9.1]`. -/
theorem c10_witness :
    (loadConfigVersions [v39, v391]).Pairwise (fun a b => vkey b < vkey a)
    ∧ (loadConfigVersions [v39, v391]).Nodup
    ∧ (uvCtxsDemo.map Context.python_version).Pairwise (fun a b => vkey b < vkey a)
    ∧ ∀ c0 cs, uvCtxsDemo = c0 :: cs →
        ∀ c ∈ uvCtxsDemo, vkey c.python_version ≤ vkey c0.python_version :=
  c10_load_resolve_amended [v39, v391] "/r" whichUvDemo rtvDemo v39 "/usr/bin/python"
    none uvCtxsDemo
    (by rw [show loadConfigVersions [v39, v391] = [v391, v39] by decide]; rfl)
